import Mathlib

/-!
# Verification of `vec_list`: an arena-backed doubly linked list

This file shallowly embeds the two source files of the `vec_list` crate
(`src/lib.rs` and `src/bounded.rs`) and proves properties of the embedded
operations.

Modelling conventions:
* Rust `usize` indices become `Nat` (no index arithmetic overflows here:
  indices are bounded by the arena length).
* `Vec<Slot<T>>` becomes `List (Slot T)`; `Vec::push` is `++ [·]`,
  in-place slot writes are `List.set`.
* Unchecked reads (`get_unchecked`) that are undefined behaviour when the
  index is out of range are modelled with `List.getElem?` plus an arbitrary
  default (`Slot.Deleted none`); the default is only reachable on paths that
  are undefined behaviour in the source, and every theorem below is stated
  on states where those paths are not taken.
* `unreachable_unchecked` branches (undefined behaviour in the source) are
  modelled by a harmless arbitrary choice, marked `UB` in comments.
* A Rust panic (the `assert!` in `delete`) is modelled by `Option`:
  `none` is the panicking outcome.
-/

set_option maxHeartbeats 1000000

namespace VecListModel

/-- Model of `Slot<T>` from src/lib.rs: either an occupied slot with a value and
doubly-linked-chain neighbour indices, or a deleted slot holding the
free-stack back link. -/
inductive Slot (T : Type) where
  | Value (val : T) (next : Option Nat) (prev : Option Nat)
  | Deleted (prev : Option Nat)
deriving DecidableEq

namespace Slot

/-- Model of `Slot::is_deleted`. -/
def is_deleted {T : Type} : Slot T → Bool
  | .Deleted _ => true
  | .Value _ _ _ => false

/-- Model of `Slot::has_value`. -/
def has_value {T : Type} : Slot T → Bool
  | .Deleted _ => false
  | .Value _ _ _ => true

/-- The `match deleted_slot { Slot::Deleted { prev } => *prev, _ =>
unreachable_unchecked() }` read in `push_back`/`push_front`.  The `Value`
branch is UB in the source; we arbitrarily return the `prev` link there. -/
def deletedPrev {T : Type} : Slot T → Option Nat
  | .Deleted p => p
  | .Value _ _ p => p

/-- Model of `match slot { Slot::Value { next, .. } => *next = n, _ =>
unreachable_unchecked() }`: overwrite the `next` link of an occupied slot.
The `Deleted` branch is UB in the source; we arbitrarily leave the slot
unchanged there. -/
def withNext {T : Type} (s : Slot T) (n : Option Nat) : Slot T :=
  match s with
  | .Value v _ p => .Value v n p
  | .Deleted p => .Deleted p

/-- Overwrite the `prev` link of an occupied slot (UB on a deleted slot,
modelled as the identity). -/
def withPrev {T : Type} (s : Slot T) (n : Option Nat) : Slot T :=
  match s with
  | .Value v nx _ => .Value v nx n
  | .Deleted p => .Deleted p

end Slot

/-- Model of `VecList<T>` from src/lib.rs. -/
structure VecList (T : Type) where
  list : List (Slot T)
  head : Option Nat
  tail : Option Nat
  deleted_tail : Option Nat
  len : Nat
deriving DecidableEq

namespace VecList

variable {T : Type}

/-- Model of `VecList::new`. -/
def new : VecList T := ⟨[], none, none, none, 0⟩

/-- Model of `VecList::with_capacity` (the `Vec` pre-allocation is not observable
in this model, so this is the same state as `new`). -/
def with_capacity (_cap : Nat) : VecList T := new

/-- Model of `VecList::cap`: the arena length (`self.list.len()`), i.e. the total
number of slots ever allocated. -/
def cap (s : VecList T) : Nat := s.list.length

/-- Model of `VecList::is_empty`. -/
def is_empty (s : VecList T) : Bool := s.len == 0

/-- The unchecked slot read `get_slot`/`get_slot_mut` (UB when out of
range; the default is never reached on defined paths). -/
def getSlot (s : VecList T) (idx : Nat) : Slot T :=
  (s.list[idx]?).getD (.Deleted none)

/-- Unchecked slot read on a raw arena. -/
def getSlotL (l : List (Slot T)) (idx : Nat) : Slot T :=
  (l[idx]?).getD (.Deleted none)

/-- The stored value at an index of a raw arena, if occupied (the body of
`get`, factored over the arena). -/
def valueAtL (l : List (Slot T)) (idx : Nat) : Option T :=
  match l[idx]? with
  | some (.Value v _ _) => some v
  | _ => none

/-- Model of `VecList::push_back`.  Returns the handle of the inserted element and
the updated list. -/
def push_back (s : VecList T) (val : T) : Nat × VecList T :=
  match s.deleted_tail with
  | some deleted_idx =>
    -- reuse the top of the free stack
    let old_tail := s.tail
    let deleted_prev := (s.getSlot deleted_idx).deletedPrev
    let list1 := s.list.set deleted_idx (.Value val none old_tail)
    let list2 :=
      match s.tail with
      | some t => list1.set t ((getSlotL list1 t).withNext (some deleted_idx))
      | none => list1
    let s1 : VecList T :=
      { list := list2, head := s.head, tail := some deleted_idx,
        deleted_tail := deleted_prev, len := s.len }
    -- `self.is_empty()` is `self.len() == 0`, written here as a Prop-level if
    let s2 := if s1.len = 0 then { s1 with head := s1.tail } else s1
    (deleted_idx, { s2 with len := s2.len + 1 })
  | none =>
    -- append a fresh slot
    let cur_idx := s.len
    let list1 := s.list ++ [.Value val none s.tail]
    if s.len = 0 then
      (cur_idx, { list := list1, head := some 0, tail := some cur_idx,
                  deleted_tail := none, len := s.len + 1 })
    else
      -- `self.tail.unwrap_unchecked()` is UB when `tail = none`; that path
      -- only occurs with `len ≠ 0 ∧ tail = none`, unreachable; we model it
      -- by skipping the relink.
      let list2 :=
        match s.tail with
        | some t => list1.set t ((getSlotL list1 t).withNext (some cur_idx))
        | none => list1
      (cur_idx, { list := list2, head := s.head, tail := some cur_idx,
                  deleted_tail := none, len := s.len + 1 })

/-- Model of `VecList::push_front`. -/
def push_front (s : VecList T) (val : T) : Nat × VecList T :=
  match s.deleted_tail with
  | some deleted_idx =>
    let old_head := s.head
    let deleted_prev := (s.getSlot deleted_idx).deletedPrev
    let list1 := s.list.set deleted_idx (.Value val old_head none)
    let list2 :=
      match s.head with
      | some h => list1.set h ((getSlotL list1 h).withPrev (some deleted_idx))
      | none => list1
    let s1 : VecList T :=
      { list := list2, head := some deleted_idx, tail := s.tail,
        deleted_tail := deleted_prev, len := s.len }
    let s2 := if s1.len = 0 then { s1 with tail := s1.head } else s1
    (deleted_idx, { s2 with len := s2.len + 1 })
  | none =>
    let cur_idx := s.len
    let list1 := s.list ++ [.Value val s.head none]
    if s.len = 0 then
      (cur_idx, { list := list1, head := some cur_idx, tail := some 0,
                  deleted_tail := none, len := s.len + 1 })
    else
      let list2 :=
        match s.head with
        | some h => list1.set h ((getSlotL list1 h).withPrev (some cur_idx))
        | none => list1
      (cur_idx, { list := list2, head := some cur_idx, tail := s.tail,
                  deleted_tail := none, len := s.len + 1 })

/-- The body of `VecList::delete` after its `assert!(idx < self.cap())`.
When the slot is occupied it unlinks it from the live chain, pushes it on
the free stack and returns the value; when it is already deleted it
returns `none` and leaves the state untouched. -/
def deleteAux (s : VecList T) (idx : Nat) : Option T × VecList T :=
  let old_delete_head := s.deleted_tail
  match s.list[idx]? with
  | some (.Value v nxt prv) =>
    -- `self.head.unwrap_unchecked() == idx` (UB when `head = none`,
    -- unreachable since the slot is occupied): modelled as `head = some idx`.
    let head1 := if s.head = some idx then nxt else s.head
    let tail1 := if s.tail = some idx then prv else s.tail
    let list1 :=
      match prv with
      | some p => s.list.set p ((getSlotL s.list p).withNext nxt)
      | none => s.list
    let list2 :=
      match nxt with
      | some n => list1.set n ((getSlotL list1 n).withPrev prv)
      | none => list1
    let list3 := list2.set idx (.Deleted old_delete_head)
    (some v, { list := list3, head := head1, tail := tail1,
               deleted_tail := some idx, len := s.len - 1 })
  | _ => (none, s)

/-- Model of `VecList::delete`, including the `assert!(idx < self.cap())`:
`none` is the panicking outcome. -/
def delete (s : VecList T) (idx : Nat) : Option (Option T × VecList T) :=
  if idx < s.cap then some (s.deleteAux idx) else none

/-- Model of `VecList::pop_front` = `delete(head?)`.  The assert inside `delete`
cannot fire here (`head` always points inside the arena on reachable
states), so the body is used directly. -/
def pop_front (s : VecList T) : Option T × VecList T :=
  match s.head with
  | some h => s.deleteAux h
  | none => (none, s)

/-- Model of `VecList::pop_back` = `delete(tail?)`. -/
def pop_back (s : VecList T) : Option T × VecList T :=
  match s.tail with
  | some t => s.deleteAux t
  | none => (none, s)

/-- Model of `VecList::front`: value and handle of the head element.  The source
hits `unreachable_unchecked` when `head` points at a deleted slot (UB,
unreachable); that branch is modelled as `none`. -/
def front (s : VecList T) : Option (T × Nat) :=
  match s.head with
  | none => none
  | some h =>
    match s.getSlot h with
    | .Value v _ _ => some (v, h)
    | .Deleted _ => none

/-- Model of `VecList::back`. -/
def back (s : VecList T) : Option (T × Nat) :=
  match s.tail with
  | none => none
  | some t =>
    match s.getSlot t with
    | .Value v _ _ => some (v, t)
    | .Deleted _ => none

/-- Model of `VecList::get`. -/
def get (s : VecList T) (idx : Nat) : Option T :=
  match s.list[idx]? with
  | some (.Value v _ _) => some v
  | _ => none

/-- Model of `VecList::next` exactly as written in the source, inverted guard
included: `if idx < self.cap() { return None; }` bails out with `None` for
every in-range handle, and only then reads the slot.  For `idx ≥ cap` the
unchecked slot read is UB in the source; the model's default makes it
`none`. -/
def next (s : VecList T) (idx : Nat) : Option Nat :=
  if idx < s.cap then none
  else
    match s.getSlot idx with
    | .Value _ nx _ => nx
    | .Deleted _ => none

/-- Model of `VecList::previous`, with the same inverted guard as `next`. -/
def previous (s : VecList T) (idx : Nat) : Option Nat :=
  if idx < s.cap then none
  else
    match s.getSlot idx with
    | .Value _ _ pv => pv
    | .Deleted _ => none

/-- Model of `VecList::clear`. -/
def clear (_s : VecList T) : VecList T :=
  { list := [], head := none, tail := none, deleted_tail := none, len := 0 }

end VecList

/-- The cursor pair of `Iter<'a, T>` (the borrowed list is passed
separately, Lean having no references). -/
structure Iter where
  next : Option Nat
  prev : Option Nat
deriving DecidableEq

/-- Model of `VecList::iter`. -/
def VecList.iter {T : Type} (s : VecList T) : Iter := ⟨s.head, s.tail⟩

/-- Model of `Iter::next`: step the forward cursor.  The `Deleted` branch is
`unreachable_unchecked` in the source (UB); modelled as `none`. -/
def iterNext {T : Type} (s : VecList T) (it : Iter) : Option ((T × Nat) × Iter) :=
  match it.next with
  | none => none
  | some i =>
    match s.getSlot i with
    | .Value v nx _ => some ((v, i), { it with next := nx })
    | .Deleted _ => none

/-- Model of `Iter::next_back`: step the backward cursor. -/
def iterNextBack {T : Type} (s : VecList T) (it : Iter) : Option ((T × Nat) × Iter) :=
  match it.prev with
  | none => none
  | some i =>
    match s.getSlot i with
    | .Value v _ pv => some ((v, i), { it with prev := pv })
    | .Deleted _ => none

/-- Model of `BoundedList<T>` from src/bounded.rs. -/
structure BoundedList (T : Type) where
  list : VecList T
  cap : Nat
deriving DecidableEq

namespace BoundedList

variable {T : Type}

/-- Model of `BoundedList::new`. -/
def new (cap : Nat) : BoundedList T := ⟨VecList.with_capacity cap, cap⟩

/-- Model of `BoundedList::add`: evict the tail and insert at the front when the
length has reached `cap`, otherwise plain `push_back`. -/
def add (bl : BoundedList T) (val : T) : BoundedList T :=
  if bl.list.len = bl.cap then
    let l1 := (bl.list.pop_back).2
    { bl with list := (l1.push_front val).2 }
  else
    { bl with list := (bl.list.push_back val).2 }

/-- Model of `BoundedList::len`. -/
def len (bl : BoundedList T) : Nat := bl.list.len

/-- Model of `BoundedList::is_empty`. -/
def is_empty (bl : BoundedList T) : Bool := bl.len == 0

end BoundedList

/-- Direction of one double-ended iterator step. -/
inductive Dir where
  | F
  | B
deriving DecidableEq

/-- Run a read-only iterator through the given sequence of forward/backward
steps, collecting every yielded (value, handle) pair. -/
def runIter {T : Type} (s : VecList T) : List Dir → Iter → List (T × Nat)
  | [], _ => []
  | .F :: rest, it =>
    match iterNext s it with
    | none => runIter s rest it
    | some (x, it2) => x :: runIter s rest it2
  | .B :: rest, it =>
    match iterNextBack s it with
    | none => runIter s rest it
    | some (x, it2) => x :: runIter s rest it2

/-- Collect at most `fuel` elements by repeated `Iter::next`. -/
def collectF {T : Type} (s : VecList T) : Nat → Iter → List (T × Nat)
  | 0, _ => []
  | fuel + 1, it =>
    match iterNext s it with
    | none => []
    | some (x, it2) => x :: collectF s fuel it2

/-- Collect at most `fuel` elements by repeated `Iter::next_back`. -/
def collectB {T : Type} (s : VecList T) : Nat → Iter → List (T × Nat)
  | 0, _ => []
  | fuel + 1, it =>
    match iterNextBack s it with
    | none => []
    | some (x, it2) => x :: collectB s fuel it2

/-- The whole forward traversal of a fresh `iter()` (`len` steps). -/
def forwardSeq {T : Type} (s : VecList T) : List (T × Nat) :=
  collectF s s.len s.iter

/-- The whole backward traversal of a fresh `iter()`. -/
def backwardSeq {T : Type} (s : VecList T) : List (T × Nat) :=
  collectB s s.len s.iter

/-- One mutating call of the public API (used for the handle-stability
claim). -/
inductive Op (T : Type) where
  | pushBack (v : T)
  | pushFront (v : T)
  | deleteOp (idx : Nat)
  | popFront
  | popBack

/-- Apply one operation; `none` is the panicking outcome (out-of-range
`delete`). -/
def applyOp {T : Type} (s : VecList T) : Op T → Option (VecList T)
  | .pushBack v => some (s.push_back v).2
  | .pushFront v => some (s.push_front v).2
  | .deleteOp idx => if idx < s.cap then some (s.deleteAux idx).2 else none
  | .popFront => some (s.pop_front).2
  | .popBack => some (s.pop_back).2

/-- Does this operation remove the element at handle `h` (directly or as
the current front/back)? -/
def removesH {T : Type} (s : VecList T) (h : Nat) : Op T → Bool
  | .deleteOp idx => idx == h
  | .popFront => s.head == some h
  | .popBack => s.tail == some h
  | .pushBack _ => false
  | .pushFront _ => false

/-- Run a sequence of operations, refusing (with `none`) any that panics
or that removes handle `h`. -/
def safeRun {T : Type} (s : VecList T) (h : Nat) : List (Op T) → Option (VecList T)
  | [] => some s
  | op :: rest =>
    if removesH s h op then none
    else
      match applyOp s op with
      | none => none
      | some s2 => safeRun s2 h rest

/-- Push each value in order with `push_back`. -/
def pushBackAll {T : Type} (s : VecList T) (vs : List T) : VecList T :=
  vs.foldl (fun acc v => (acc.push_back v).2) s

/-- Pop `n` times from the front, collecting the results in order. -/
def popFrontN {T : Type} : VecList T → Nat → List (Option T)
  | _, 0 => []
  | s, n + 1 => (s.pop_front).1 :: popFrontN (s.pop_front).2 n

/-- Pop `n` times from the back, collecting the results in order. -/
def popBackN {T : Type} : VecList T → Nat → List (Option T)
  | _, 0 => []
  | s, n + 1 => (s.pop_back).1 :: popBackN (s.pop_back).2 n

/-- The two-element list `[10, 20]` used as a concrete test vehicle. -/
def exList2 : VecList Nat :=
  (((VecList.new).push_back 10).2.push_back 20).2

/-! ## Representation invariant

`IsChain arena p c xs pE cE` says: starting from cursor `c`, whose slot (if
any) must record `p` as its `prev` link, following `next` links visits
exactly the handle/value pairs `xs`, after which the running `prev` pointer
is `pE` and the cursor is `cE`.  A complete live chain of the list `s` is
`IsChain s.list none s.head xs s.tail none`. -/
inductive IsChain {T : Type} (arena : List (Slot T)) :
    Option Nat → Option Nat → List (Nat × T) → Option Nat → Option Nat → Prop
  | nil (p c : Option Nat) : IsChain arena p c [] p c
  | cons {i : Nat} {v : T} {nx p pE cE : Option Nat} {xs : List (Nat × T)} :
      arena[i]? = some (.Value v nx p) →
      IsChain arena (some i) nx xs pE cE →
      IsChain arena p (some i) ((i, v) :: xs) pE cE

/-- Predicate `IsFree arena top ds`: following the reused `prev` links from `top`
visits exactly the deleted slots `ds` (most recently deleted first) and
ends at `none`. -/
inductive IsFree {T : Type} (arena : List (Slot T)) : Option Nat → List Nat → Prop
  | nil : IsFree arena none []
  | cons {i : Nat} {p : Option Nat} {ds : List Nat} :
      arena[i]? = some (.Deleted p) →
      IsFree arena p ds →
      IsFree arena (some i) (i :: ds)

/-- The full representation invariant of a `VecList` state: `xs` is the
live chain (handles with values, front to back) and `ds` the free stack
(top first); together they partition the allocated slots. -/
structure Models {T : Type} (s : VecList T) (xs : List (Nat × T)) (ds : List Nat) : Prop where
  chain : IsChain s.list none s.head xs s.tail none
  free : IsFree s.list s.deleted_tail ds
  len_eq : s.len = xs.length
  nodup : (xs.map Prod.fst ++ ds).Nodup
  cover : ∀ i : Nat, i < s.list.length → (i ∈ xs.map Prod.fst ∨ i ∈ ds)

/-- States reachable through the public mutating API from a fresh list. -/
inductive Reachable {T : Type} : VecList T → Prop
  | new : Reachable VecList.new
  | with_capacity (c : Nat) : Reachable (VecList.with_capacity c)
  | push_back {s : VecList T} (v : T) : Reachable s → Reachable (s.push_back v).2
  | push_front {s : VecList T} (v : T) : Reachable s → Reachable (s.push_front v).2
  | pop_front {s : VecList T} : Reachable s → Reachable (s.pop_front).2
  | pop_back {s : VecList T} : Reachable s → Reachable (s.pop_back).2
  | delete {s : VecList T} (idx : Nat) : Reachable s → idx < s.cap →
      Reachable (s.deleteAux idx).2
  | clear {s : VecList T} : Reachable s → Reachable s.clear

section ChainLemmas

variable {T : Type} {arena arena2 : List (Slot T)}

lemma IsChain.mem_value {p c pE cE : Option Nat} {xs : List (Nat × T)}
    (h : IsChain arena p c xs pE cE) {i : Nat} {v : T} (hm : (i, v) ∈ xs) :
    ∃ nx pv, arena[i]? = some (.Value v nx pv) := by
  induction h with
  | nil => cases hm
  | cons hslot _ ih =>
    rcases List.mem_cons.mp hm with h1 | h1
    · cases h1; exact ⟨_, _, hslot⟩
    · exact ih h1

lemma IsChain.mem_lt {p c pE cE : Option Nat} {xs : List (Nat × T)}
    (h : IsChain arena p c xs pE cE) {i : Nat} (hm : i ∈ xs.map Prod.fst) :
    i < arena.length := by
  rcases List.mem_map.mp hm with ⟨⟨i', v⟩, hmem, rfl⟩
  rcases h.mem_value hmem with ⟨nx, pv, hslot⟩
  exact (List.getElem?_eq_some.mp hslot).1

lemma IsChain.congr {p c pE cE : Option Nat} {xs : List (Nat × T)}
    (h : IsChain arena p c xs pE cE)
    (hagree : ∀ i, i ∈ xs.map Prod.fst → arena2[i]? = arena[i]?) :
    IsChain arena2 p c xs pE cE := by
  induction h with
  | nil => exact .nil _ _
  | cons hslot _ ih =>
    refine .cons ?_ (ih fun j hj => hagree j (by simp [hj]))
    rw [hagree _ (by simp)]; exact hslot

lemma IsChain.append {p c pm cm pE cE : Option Nat} {xs ys : List (Nat × T)}
    (h1 : IsChain arena p c xs pm cm) (h2 : IsChain arena pm cm ys pE cE) :
    IsChain arena p c (xs ++ ys) pE cE := by
  induction h1 with
  | nil => exact h2
  | cons hslot _ ih => exact .cons hslot (ih h2)

lemma IsChain.append_inv {p c pE cE : Option Nat} {xs ys : List (Nat × T)}
    (h : IsChain arena p c (xs ++ ys) pE cE) :
    ∃ pm cm, IsChain arena p c xs pm cm ∧ IsChain arena pm cm ys pE cE := by
  induction xs generalizing p c with
  | nil => exact ⟨p, c, .nil _ _, h⟩
  | cons hd tl ih =>
    cases h with
    | cons hslot htail =>
      rcases ih htail with ⟨pm, cm, h1, h2⟩
      exact ⟨pm, cm, .cons hslot h1, h2⟩

lemma IsChain.nil_inv {p c pE cE : Option Nat}
    (h : IsChain arena p c ([] : List (Nat × T)) pE cE) : pE = p ∧ cE = c := by
  cases h; exact ⟨rfl, rfl⟩

lemma IsChain.cons_inv {p c pE cE : Option Nat} {i : Nat} {v : T} {xs : List (Nat × T)}
    (h : IsChain arena p c ((i, v) :: xs) pE cE) :
    c = some i ∧ ∃ nx, arena[i]? = some (.Value v nx p) ∧
      IsChain arena (some i) nx xs pE cE := by
  cases h with
  | cons hslot htail => exact ⟨rfl, _, hslot, htail⟩

/-- On a non-empty chain the final `prev` pointer is the last handle. -/
lemma IsChain.last_pE {p c pE cE : Option Nat} {xs : List (Nat × T)}
    (h : IsChain arena p c xs pE cE) (hne : xs ≠ []) :
    ∃ iv : Nat × T, ∃ ys, xs = ys ++ [iv] ∧ pE = some iv.1 := by
  induction h with
  | nil => exact absurd rfl hne
  | cons hslot htail ih =>
    rename_i i v nx p' pE' cE' xs'
    by_cases hxs : xs' = []
    · subst hxs
      rcases htail.nil_inv with ⟨h1, _⟩
      exact ⟨(i, v), [], rfl, by rw [h1]⟩
    · rcases ih hxs with ⟨iv, ys, hdecomp, hpE⟩
      exact ⟨iv, (i, v) :: ys, by rw [hdecomp]; rfl, hpE⟩

end ChainLemmas

section FreeLemmas

variable {T : Type} {arena arena2 : List (Slot T)}

lemma IsFree.mem_deleted {top : Option Nat} {ds : List Nat}
    (h : IsFree arena top ds) {i : Nat} (hm : i ∈ ds) :
    ∃ p, arena[i]? = some (.Deleted p) := by
  induction h with
  | nil => cases hm
  | cons hslot _ ih =>
    rcases List.mem_cons.mp hm with rfl | h1
    · exact ⟨_, hslot⟩
    · exact ih h1

lemma IsFree.memLtFree {top : Option Nat} {ds : List Nat}
    (h : IsFree arena top ds) {i : Nat} (hm : i ∈ ds) : i < arena.length := by
  rcases h.mem_deleted hm with ⟨p, hslot⟩
  exact (List.getElem?_eq_some.mp hslot).1

lemma IsFree.congrFree {top : Option Nat} {ds : List Nat}
    (h : IsFree arena top ds)
    (hagree : ∀ i, i ∈ ds → arena2[i]? = arena[i]?) :
    IsFree arena2 top ds := by
  induction h with
  | nil => exact .nil
  | cons hslot _ ih =>
    refine .cons ?_ (ih fun j hj => hagree j (by simp [hj]))
    rw [hagree _ (by simp)]; exact hslot

lemma IsFree.none_inv {ds : List Nat} (h : IsFree arena none ds) : ds = [] := by
  cases h; rfl

lemma IsFree.nilInvFree {top : Option Nat} (h : IsFree arena top []) : top = none := by
  cases h; rfl

lemma IsFree.consInvFree {top : Option Nat} {i : Nat} {ds : List Nat}
    (h : IsFree arena top (i :: ds)) :
    top = some i ∧ ∃ p, arena[i]? = some (.Deleted p) ∧ IsFree arena p ds := by
  cases h with
  | cons hslot htail => exact ⟨rfl, _, hslot, htail⟩

lemma IsFree.some_inv {i : Nat} {ds : List Nat} (h : IsFree arena (some i) ds) :
    ∃ p ds', ds = i :: ds' ∧ arena[i]? = some (.Deleted p) ∧ IsFree arena p ds' := by
  cases h with
  | cons hslot htail => exact ⟨_, _, rfl, hslot, htail⟩

end FreeLemmas

section Surgery

variable {T : Type} {arena : List (Slot T)}

/-- Redirect the `next` link of the last element of a non-empty chain.
Only that element's slot is rewritten, so the chain now ends with cursor
`cE2` instead of `cE`. -/
lemma IsChain.retarget {p c cE : Option Nat} {t : Nat} {xs : List (Nat × T)}
    (h : IsChain arena p c xs (some t) cE) (nd : (xs.map Prod.fst).Nodup)
    (hne : xs ≠ []) (cE2 : Option Nat) :
    ∃ vt pt, arena[t]? = some (.Value vt cE pt) ∧
      IsChain (arena.set t (.Value vt cE2 pt)) p c xs (some t) cE2 := by
  induction xs generalizing p c with
  | nil => exact absurd rfl hne
  | cons hd tl ih =>
    obtain ⟨i, v⟩ := hd
    obtain ⟨rfl, nx, hslot, htail⟩ := h.cons_inv
    simp only [List.map_cons, List.nodup_cons] at nd
    by_cases hxs : tl = []
    · subst hxs
      obtain ⟨hti, hcE⟩ := htail.nil_inv
      obtain rfl : t = i := Option.some.inj hti
      subst hcE
      refine ⟨v, p, hslot, .cons ?_ (.nil _ _)⟩
      exact List.getElem?_set_eq_of_lt _ (List.getElem?_eq_some.mp hslot).1
    · rcases ih htail nd.2 hxs with ⟨vt, pt, hat, hchain⟩
      have htmem : t ∈ tl.map Prod.fst := by
        rcases htail.last_pE hxs with ⟨iv, ys, hdec, hpe⟩
        obtain rfl : t = iv.1 := Option.some.inj hpe
        rw [hdec]; simp
      have hit : i ≠ t := fun hh => nd.1 (by rw [hh]; exact htmem)
      refine ⟨vt, pt, hat, .cons ?_ hchain⟩
      rw [List.getElem?_set_ne (Ne.symm hit)]; exact hslot

/-- Rewrite the `prev` link of the first element of a chain; the chain then
hangs off expected previous handle `q` instead of `p`. -/
lemma IsChain.head_reprev {i : Nat} {v : T} {nx p pE cE : Option Nat}
    {xs : List (Nat × T)} (q : Option Nat)
    (hslot : arena[i]? = some (.Value v nx p))
    (htail : IsChain arena (some i) nx xs pE cE)
    (hni : i ∉ xs.map Prod.fst) :
    IsChain (arena.set i (.Value v nx q)) q (some i) ((i, v) :: xs) pE cE := by
  refine .cons ?_ (htail.congr fun j hj => ?_)
  · exact List.getElem?_set_eq_of_lt _ (List.getElem?_eq_some.mp hslot).1
  · exact List.getElem?_set_ne (fun hh => hni (by rw [hh]; exact hj))

end Surgery

section ModelsLemmas

variable {T : Type} {s : VecList T} {xs : List (Nat × T)} {ds : List Nat}

lemma Models.disjoint (M : Models s xs ds) {i : Nat}
    (h1 : i ∈ xs.map Prod.fst) (h2 : i ∈ ds) : False :=
  (List.nodup_append.mp M.nodup).2.2 h1 h2

lemma Models.chain_nodup (M : Models s xs ds) : (xs.map Prod.fst).Nodup :=
  (List.nodup_append.mp M.nodup).1

lemma Models.free_nodup (M : Models s xs ds) : ds.Nodup :=
  (List.nodup_append.mp M.nodup).2.1

/-- When the free stack is empty every allocated slot is live, so the
length equals the capacity. -/
lemma Models.len_eq_cap_of_free_nil (M : Models s xs []) : s.len = s.cap := by
  have hsub : xs.map Prod.fst ⊆ List.range s.cap := by
    intro i hi
    exact List.mem_range.mpr (M.chain.mem_lt hi)
  have hsup : List.range s.cap ⊆ xs.map Prod.fst := by
    intro i hi
    rcases M.cover i (List.mem_range.mp hi) with h | h
    · exact h
    · cases h
  have h1 : (xs.map Prod.fst).length ≤ s.cap := by
    have := (List.subperm_of_subset M.chain_nodup hsub).length_le
    simpa using this
  have h2 : s.cap ≤ (xs.map Prod.fst).length := by
    have := (List.subperm_of_subset (List.nodup_range _) hsup).length_le
    simpa using this
  have : (xs.map Prod.fst).length = s.cap := Nat.le_antisymm h1 h2
  rw [M.len_eq, ← List.length_map xs Prod.fst, this]

/-- An occupied slot is on the live chain, and with its recorded value. -/
lemma Models.mem_chain_of_value (M : Models s xs ds) {idx : Nat} {v : T}
    {nxt prv : Option Nat} (h : s.list[idx]? = some (.Value v nxt prv)) :
    ∃ as bs, xs = as ++ (idx, v) :: bs := by
  have hlt : idx < s.list.length := (List.getElem?_eq_some.mp h).1
  have hmem : idx ∈ xs.map Prod.fst := by
    rcases M.cover idx hlt with hc | hc
    · exact hc
    · rcases M.free.mem_deleted hc with ⟨p, hp⟩
      rw [h] at hp; cases hp
  rcases List.mem_map.mp hmem with ⟨⟨i', w⟩, hmem', hfst⟩
  cases hfst
  rcases List.append_of_mem hmem' with ⟨as, bs, hdec⟩
  rcases M.chain.mem_value hmem' with ⟨nx', pv', hslot⟩
  rw [h] at hslot
  obtain ⟨rfl, -, -⟩ : w = v ∧ nx' = nxt ∧ pv' = prv := by
    injection hslot with hval; injection hval with a b c; exact ⟨a.symm, b.symm, c.symm⟩
  exact ⟨as, bs, hdec⟩

end ModelsLemmas

section PushBack

variable {T : Type} {s : VecList T} {xs : List (Nat × T)} {ds : List Nat}

/-- Operation `push_back` with a non-empty free stack pops its top slot `d`, returns
`d` as the handle and appends `(d, v)` to the live chain. -/
lemma push_back_models_reuse {d : Nat} (M : Models s xs (d :: ds)) (v : T) :
    (s.push_back v).1 = d ∧ Models (s.push_back v).2 (xs ++ [(d, v)]) ds := by
  obtain ⟨hdt, p, hdslot, hfree⟩ := M.free.consInvFree
  have hdlt : d < s.list.length := (List.getElem?_eq_some.mp hdslot).1
  have hdnc : d ∉ xs.map Prod.fst := fun hmem => M.disjoint hmem (by simp)
  have hdnds : d ∉ ds := (List.nodup_cons.mp M.free_nodup).1
  by_cases hxs : xs = []
  · subst hxs
    obtain ⟨htail, hhead⟩ := M.chain.nil_inv
    have hlen : s.len = 0 := M.len_eq
    have hres : s.push_back v =
        (d, ⟨s.list.set d (.Value v none none), some d, some d, p, 1⟩) := by
      simp only [VecList.push_back, hdt, VecList.getSlot, hdslot, Option.getD_some,
        Slot.deletedPrev, htail, hlen]
      simp
    rw [hres]
    refine ⟨rfl, ⟨?_, ?_, rfl, ?_, ?_⟩⟩
    · exact .cons (List.getElem?_set_eq_of_lt _ hdlt) (.nil _ _)
    · exact hfree.congrFree fun j hj =>
        List.getElem?_set_ne (fun hh => hdnds (by rw [hh]; exact hj))
    · simpa using (List.nodup_cons.mp M.nodup)
    · intro i hi
      rw [List.length_set] at hi
      rcases M.cover i hi with hc | hc
      · cases hc
      · rcases List.mem_cons.mp hc with rfl | hc
        · exact Or.inl (by simp)
        · exact Or.inr hc
  · rcases M.chain.last_pE hxs with ⟨iv, ys, hdec, htail⟩
    set t := iv.1 with ht
    have htc : t ∈ xs.map Prod.fst := by rw [hdec]; simp
    have htd : t ≠ d := fun hh => hdnc (by rw [← hh]; exact htc)
    have hlen : ¬s.len = 0 := by
      rw [M.len_eq]
      exact fun h0 => hxs (List.length_eq_zero.mp h0)
    have hch : IsChain s.list none s.head xs (some t) none := by
      rw [← htail]; exact M.chain
    rcases hch.retarget M.chain_nodup hxs (some d) with ⟨vt, pt, hat, hchain⟩
    have h1 : VecList.getSlotL (s.list.set d (.Value v none (some t))) t
        = Slot.Value vt none pt := by
      rw [VecList.getSlotL, List.getElem?_set_ne (Ne.symm htd), hat, Option.getD_some]
    have hres : s.push_back v =
        (d, ⟨(s.list.set d (.Value v none (some t))).set t (.Value vt (some d) pt),
             s.head, some d, p, s.len + 1⟩) := by
      simp only [VecList.push_back, hdt, VecList.getSlot, hdslot, Option.getD_some,
        Slot.deletedPrev, htail, h1, Slot.withNext, if_neg hlen]
    rw [hres]
    have hms : (s.list.set d (.Value v none (some t))).set t (.Value vt (some d) pt)
        = (s.list.set t (.Value vt (some d) pt)).set d (.Value v none (some t)) :=
      List.set_comm (Slot.Value v none (some t)) (Slot.Value vt (some d) pt)
        s.list (Ne.symm htd)
    refine ⟨rfl, ⟨?_, ?_, ?_, ?_, ?_⟩⟩
    · -- the new live chain is xs ++ [(d, v)]
      show IsChain _ none s.head (xs ++ [(d, v)]) (some d) none
      rw [hms]
      refine IsChain.append
        (hchain.congr fun i hi =>
          List.getElem?_set_ne (fun hh => hdnc (by rw [hh]; exact hi)))
        (.cons ?_ (.nil _ _))
      refine List.getElem?_set_eq_of_lt _ ?_
      rw [List.length_set]
      exact hdlt
    · exact hfree.congrFree fun j hj => by
        have hjd : j ≠ d := fun hh => hdnds (by rw [← hh]; exact hj)
        have hjt : j ≠ t :=
          fun hh => M.disjoint htc (by rw [← hh]; exact List.mem_cons_of_mem _ hj)
        rw [List.getElem?_set_ne (Ne.symm hjt), List.getElem?_set_ne (Ne.symm hjd)]
    · rw [M.len_eq]; simp
    · simpa [List.append_assoc] using M.nodup
    · intro i hi
      rw [List.length_set, List.length_set] at hi
      rcases M.cover i hi with hc | hc
      · exact Or.inl (by simp [hc])
      · rcases List.mem_cons.mp hc with rfl | hc
        · exact Or.inl (by simp)
        · exact Or.inr hc

/-- Operation `push_back` with an empty free stack appends a brand-new slot; the
returned handle is the pre-insertion length (which equals the capacity). -/
lemma push_back_models_fresh (M : Models s xs []) (v : T) :
    (s.push_back v).1 = s.len ∧
      Models (s.push_back v).2 (xs ++ [(s.len, v)]) [] := by
  have hdt : s.deleted_tail = none := M.free.nilInvFree
  have hcap : s.len = s.cap := M.len_eq_cap_of_free_nil
  by_cases hxs : xs = []
  · subst hxs
    obtain ⟨htail, hhead⟩ := M.chain.nil_inv
    have hlen : s.len = 0 := M.len_eq
    have hnil : s.list = [] := by
      have : s.list.length = 0 := by rw [← VecList.cap, ← hcap, hlen]
      exact List.length_eq_zero.mp this
    have hres : s.push_back v =
        (0, ⟨[Slot.Value v none none], some 0, some 0, none, 1⟩) := by
      simp only [VecList.push_back, hdt, hlen, htail, hnil]
      simp
    rw [hres, hlen]
    refine ⟨rfl, ⟨?_, .nil, rfl, by simp, ?_⟩⟩
    · exact .cons rfl (.nil _ _)
    · intro i hi
      simp only [List.length_cons, List.length_nil] at hi
      interval_cases i
      · simp
  · rcases M.chain.last_pE hxs with ⟨iv, ys, hdec, htail⟩
    set t := iv.1 with ht
    have htc : t ∈ xs.map Prod.fst := by rw [hdec]; simp
    have htlt : t < s.list.length := M.chain.mem_lt htc
    have hlen : ¬s.len = 0 := by
      rw [M.len_eq]
      exact fun h0 => hxs (List.length_eq_zero.mp h0)
    have hch : IsChain s.list none s.head xs (some t) none := by
      rw [← htail]; exact M.chain
    rcases hch.retarget M.chain_nodup hxs (some s.len) with ⟨vt, pt, hat, hchain⟩
    have h1 : VecList.getSlotL (s.list ++ [Slot.Value v none (some t)]) t
        = Slot.Value vt none pt := by
      rw [VecList.getSlotL, List.getElem?_append_left htlt, hat, Option.getD_some]
    have hres : s.push_back v =
        (s.len, ⟨(s.list ++ [Slot.Value v none (some t)]).set t (Slot.Value vt (some s.len) pt),
                 s.head, some s.len, none, s.len + 1⟩) := by
      simp only [VecList.push_back, hdt, htail, h1, Slot.withNext, if_neg hlen]
    rw [hres]
    have hms : (s.list ++ [Slot.Value v none (some t)]).set t (Slot.Value vt (some s.len) pt)
        = (s.list.set t (Slot.Value vt (some s.len) pt)) ++ [Slot.Value v none (some t)] := by
      rw [List.set_append, if_pos htlt]
    have hmem_lt : ∀ i, i ∈ xs.map Prod.fst → i < s.list.length :=
      fun i hi => M.chain.mem_lt hi
    refine ⟨rfl, ⟨?_, .nil, ?_, ?_, ?_⟩⟩
    · show IsChain _ none s.head (xs ++ [(s.len, v)]) (some s.len) none
      rw [hms]
      refine IsChain.append
        (hchain.congr fun i hi => ?_)
        (.cons ?_ (.nil _ _))
      · have hilt : i < (s.list.set t (Slot.Value vt (some s.len) pt)).length := by
          rw [List.length_set]; exact hmem_lt i hi
        exact List.getElem?_append_left hilt
      · have hlenq : (s.list.set t (Slot.Value vt (some s.len) pt)).length = s.len := by
          rw [List.length_set, ← VecList.cap, ← hcap]
        have h2 := List.getElem?_concat_length
          (s.list.set t (Slot.Value vt (some s.len) pt)) (Slot.Value v none (some t))
        rw [hlenq] at h2
        exact h2
    · simp [M.len_eq]
    · have hnotin : s.len ∉ xs.map Prod.fst := fun hmem => by
        have := hmem_lt _ hmem
        rw [← VecList.cap, ← hcap] at this
        exact Nat.lt_irrefl _ this
      have hnd : (xs.map Prod.fst ++ [s.len]).Nodup := by
        rw [List.nodup_append]
        refine ⟨M.chain_nodup, List.nodup_singleton _, ?_⟩
        intro a ha hb
        rw [List.mem_singleton] at hb
        subst hb
        exact hnotin ha
      simpa using hnd
    · intro i hi
      rw [List.length_set, List.length_append, List.length_cons, List.length_nil] at hi
      rcases Nat.lt_succ_iff_lt_or_eq.mp hi with hi' | hi'
      · rcases M.cover i hi' with hc | hc
        · exact Or.inl (by simp [hc])
        · cases hc
      · refine Or.inl ?_
        rw [hi', ← VecList.cap, ← hcap]
        simp

end PushBack

section PushFront

variable {T : Type} {s : VecList T} {xs : List (Nat × T)} {ds : List Nat}

/-- Operation `push_front` with a non-empty free stack pops its top slot `d`, returns
`d` and prepends `(d, v)` to the live chain. -/
lemma push_front_models_reuse {d : Nat} (M : Models s xs (d :: ds)) (v : T) :
    (s.push_front v).1 = d ∧ Models (s.push_front v).2 ((d, v) :: xs) ds := by
  obtain ⟨hdt, p, hdslot, hfree⟩ := M.free.consInvFree
  have hdlt : d < s.list.length := (List.getElem?_eq_some.mp hdslot).1
  have hdnc : d ∉ xs.map Prod.fst := fun hmem => M.disjoint hmem (by simp)
  have hdnds : d ∉ ds := (List.nodup_cons.mp M.free_nodup).1
  by_cases hxs : xs = []
  · subst hxs
    obtain ⟨htail, hhead⟩ := M.chain.nil_inv
    have hlen : s.len = 0 := M.len_eq
    have hres : s.push_front v =
        (d, ⟨s.list.set d (.Value v none none), some d, some d, p, 1⟩) := by
      simp only [VecList.push_front, hdt, VecList.getSlot, hdslot, Option.getD_some,
        Slot.deletedPrev, ← hhead, hlen]
      simp
    rw [hres]
    refine ⟨rfl, ⟨?_, ?_, rfl, ?_, ?_⟩⟩
    · exact .cons (List.getElem?_set_eq_of_lt _ hdlt) (.nil _ _)
    · exact hfree.congrFree fun j hj =>
        List.getElem?_set_ne (fun hh => hdnds (by rw [hh]; exact hj))
    · simpa using (List.nodup_cons.mp M.nodup)
    · intro i hi
      rw [List.length_set] at hi
      rcases M.cover i hi with hc | hc
      · cases hc
      · rcases List.mem_cons.mp hc with rfl | hc
        · exact Or.inl (by simp)
        · exact Or.inr hc
  · obtain ⟨⟨h0, v0⟩, rest, rfl⟩ : ∃ hd rest, xs = hd :: rest := by
      cases xs with
      | nil => exact absurd rfl hxs
      | cons a l => exact ⟨a, l, rfl⟩
    obtain ⟨hhead, nx0, hslot0, hrest⟩ := M.chain.cons_inv
    have hh0c : h0 ∈ ((h0, v0) :: rest).map Prod.fst := by simp
    have hh0d : h0 ≠ d := fun hh => hdnc (by rw [← hh]; exact hh0c)
    have hh0rest : h0 ∉ rest.map Prod.fst := by
      have := M.chain_nodup
      simp only [List.map_cons, List.nodup_cons] at this
      exact this.1
    have hlen : ¬s.len = 0 := by
      rw [M.len_eq]; simp
    have h1 : VecList.getSlotL (s.list.set d (.Value v (some h0) none)) h0
        = Slot.Value v0 nx0 none := by
      rw [VecList.getSlotL, List.getElem?_set_ne (Ne.symm hh0d), hslot0, Option.getD_some]
    have hres : s.push_front v =
        (d, ⟨(s.list.set d (.Value v (some h0) none)).set h0 (.Value v0 nx0 (some d)),
             some d, s.tail, p, s.len + 1⟩) := by
      simp only [VecList.push_front, hdt, VecList.getSlot, hdslot, Option.getD_some,
        Slot.deletedPrev, hhead, h1, Slot.withPrev, if_neg hlen]
    rw [hres]
    have hms : (s.list.set d (.Value v (some h0) none)).set h0 (.Value v0 nx0 (some d))
        = (s.list.set h0 (.Value v0 nx0 (some d))).set d (.Value v (some h0) none) :=
      List.set_comm (Slot.Value v (some h0) none) (Slot.Value v0 nx0 (some d))
        s.list (Ne.symm hh0d)
    refine ⟨rfl, ⟨?_, ?_, ?_, ?_, ?_⟩⟩
    · show IsChain _ none (some d) ((d, v) :: (h0, v0) :: rest) s.tail none
      rw [hms]
      refine .cons ?_ ((IsChain.head_reprev (some d) hslot0 hrest hh0rest).congr
        fun i hi => List.getElem?_set_ne (fun hh => hdnc (by rw [hh]; exact hi)))
      refine List.getElem?_set_eq_of_lt _ ?_
      rw [List.length_set]
      exact hdlt
    · refine hfree.congrFree fun j hj => ?_
      have hjd : j ≠ d := fun hh => hdnds (by rw [← hh]; exact hj)
      have hjh0 : j ≠ h0 :=
        fun hh => M.disjoint hh0c (by rw [← hh]; exact List.mem_cons_of_mem _ hj)
      rw [List.getElem?_set_ne (Ne.symm hjh0), List.getElem?_set_ne (Ne.symm hjd)]
    · simp [M.len_eq]
    · have := List.Perm.nodup List.perm_middle M.nodup
      simpa using this
    · intro i hi
      rw [List.length_set, List.length_set] at hi
      rcases M.cover i hi with hc | hc
      · refine Or.inl ?_
        simp only [List.map_cons] at hc ⊢
        exact List.mem_cons_of_mem _ hc
      · rcases List.mem_cons.mp hc with rfl | hc
        · exact Or.inl (by simp)
        · exact Or.inr hc

/-- Operation `push_front` with an empty free stack appends a brand-new slot at the
end of the arena and links it in as the new chain head. -/
lemma push_front_models_fresh (M : Models s xs []) (v : T) :
    (s.push_front v).1 = s.len ∧
      Models (s.push_front v).2 ((s.len, v) :: xs) [] := by
  have hdt : s.deleted_tail = none := M.free.nilInvFree
  have hcap : s.len = s.cap := M.len_eq_cap_of_free_nil
  by_cases hxs : xs = []
  · subst hxs
    obtain ⟨htail, hhead⟩ := M.chain.nil_inv
    have hlen : s.len = 0 := M.len_eq
    have hnil : s.list = [] := by
      have : s.list.length = 0 := by rw [← VecList.cap, ← hcap, hlen]
      exact List.length_eq_zero.mp this
    have hres : s.push_front v =
        (0, ⟨[Slot.Value v none none], some 0, some 0, none, 1⟩) := by
      simp only [VecList.push_front, hdt, hlen, ← hhead, hnil]
      simp
    rw [hres, hlen]
    refine ⟨rfl, ⟨?_, .nil, rfl, by simp, ?_⟩⟩
    · exact .cons rfl (.nil _ _)
    · intro i hi
      simp only [List.length_cons, List.length_nil] at hi
      interval_cases i
      · simp
  · obtain ⟨⟨h0, v0⟩, rest, rfl⟩ : ∃ hd rest, xs = hd :: rest := by
      cases xs with
      | nil => exact absurd rfl hxs
      | cons a l => exact ⟨a, l, rfl⟩
    obtain ⟨hhead, nx0, hslot0, hrest⟩ := M.chain.cons_inv
    have hh0lt : h0 < s.list.length := (List.getElem?_eq_some.mp hslot0).1
    have hh0rest : h0 ∉ rest.map Prod.fst := by
      have := M.chain_nodup
      simp only [List.map_cons, List.nodup_cons] at this
      exact this.1
    have hlen : ¬s.len = 0 := by
      rw [M.len_eq]; simp
    have hmem_lt : ∀ i, i ∈ ((h0, v0) :: rest).map Prod.fst → i < s.list.length :=
      fun i hi => M.chain.mem_lt hi
    have h1 : VecList.getSlotL (s.list ++ [Slot.Value v (some h0) none]) h0
        = Slot.Value v0 nx0 none := by
      rw [VecList.getSlotL, List.getElem?_append_left hh0lt, hslot0, Option.getD_some]
    have hres : s.push_front v =
        (s.len, ⟨(s.list ++ [Slot.Value v (some h0) none]).set h0
                   (Slot.Value v0 nx0 (some s.len)),
                 some s.len, s.tail, none, s.len + 1⟩) := by
      simp only [VecList.push_front, hdt, hhead, h1, Slot.withPrev, if_neg hlen]
    rw [hres]
    have hms : (s.list ++ [Slot.Value v (some h0) none]).set h0
          (Slot.Value v0 nx0 (some s.len))
        = (s.list.set h0 (Slot.Value v0 nx0 (some s.len)))
            ++ [Slot.Value v (some h0) none] := by
      rw [List.set_append, if_pos hh0lt]
    refine ⟨rfl, ⟨?_, .nil, ?_, ?_, ?_⟩⟩
    · show IsChain _ none (some s.len) ((s.len, v) :: (h0, v0) :: rest) s.tail none
      rw [hms]
      refine .cons ?_ ((IsChain.head_reprev (some s.len) hslot0 hrest hh0rest).congr
        fun i hi => ?_)
      · have hlenq : (s.list.set h0 (Slot.Value v0 nx0 (some s.len))).length = s.len := by
          rw [List.length_set, ← VecList.cap, ← hcap]
        have h2 := List.getElem?_concat_length
          (s.list.set h0 (Slot.Value v0 nx0 (some s.len))) (Slot.Value v (some h0) none)
        rw [hlenq] at h2
        exact h2
      · have hilt : i < (s.list.set h0 (Slot.Value v0 nx0 (some s.len))).length := by
          rw [List.length_set]; exact hmem_lt i hi
        exact List.getElem?_append_left hilt
    · simp [M.len_eq]
    · have hnotin : s.len ∉ ((h0, v0) :: rest).map Prod.fst := fun hmem => by
        have := hmem_lt _ hmem
        rw [← VecList.cap, ← hcap] at this
        exact Nat.lt_irrefl _ this
      have hnd : (s.len :: ((h0, v0) :: rest).map Prod.fst).Nodup :=
        List.nodup_cons.mpr ⟨hnotin, M.chain_nodup⟩
      simpa using hnd
    · intro i hi
      rw [List.length_set, List.length_append, List.length_cons, List.length_nil] at hi
      rcases Nat.lt_succ_iff_lt_or_eq.mp hi with hi' | hi'
      · rcases M.cover i hi' with hc | hc
        · refine Or.inl ?_
          simp only [List.map_cons] at hc ⊢
          exact List.mem_cons_of_mem _ hc
        · cases hc
      · refine Or.inl ?_
        rw [hi', ← VecList.cap, ← hcap]
        simp

end PushFront

section Delete

variable {T : Type} {s : VecList T} {ds : List Nat}

/-- Moving the deleted handle from the middle of the live part to the top
of the free part preserves nodup. -/
lemma nodup_shuffle {A B ds : List Nat} {idx : Nat}
    (h : ((A ++ idx :: B) ++ ds).Nodup) : ((A ++ B) ++ idx :: ds).Nodup := by
  have p1 : ((A ++ idx :: B) ++ ds).Perm (idx :: ((A ++ B) ++ ds)) := by
    have h2 := (@List.perm_middle _ idx A B).append_right ds
    simp only [List.cons_append] at h2
    exact h2
  have p2 : ((A ++ B) ++ idx :: ds).Perm (idx :: ((A ++ B) ++ ds)) := List.perm_middle
  exact p2.symm.nodup (p1.nodup h)

lemma cover_shuffle {A B ds : List Nat} {idx i : Nat}
    (h : i ∈ A ++ idx :: B ∨ i ∈ ds) : i ∈ A ++ B ∨ i ∈ idx :: ds := by
  rcases h with h | h
  · rcases List.mem_append.mp h with h | h
    · exact Or.inl (List.mem_append.mpr (Or.inl h))
    · rcases List.mem_cons.mp h with rfl | h
      · exact Or.inr (List.mem_cons_self _ _)
      · exact Or.inl (List.mem_append.mpr (Or.inr h))
  · exact Or.inr (List.mem_cons_of_mem _ h)

/-- Operation `delete` of an occupied handle returns the stored value, unlinks the
handle from the live chain and pushes it on the free stack. -/
lemma deleteAux_models {as bs : List (Nat × T)} {idx : Nat} {v : T}
    (M : Models s (as ++ (idx, v) :: bs) ds) :
    (s.deleteAux idx).1 = some v ∧
      Models (s.deleteAux idx).2 (as ++ bs) (idx :: ds) := by
  rcases M.chain.append_inv with ⟨pm, cm, hA, hB⟩
  obtain ⟨hcm, nxt, hslot, hBrest⟩ := hB.cons_inv
  subst hcm
  have hidxlt : idx < s.list.length := (List.getElem?_eq_some.mp hslot).1
  have hnodAB : (as.map Prod.fst ++ idx :: bs.map Prod.fst).Nodup := by
    have h2 := M.chain_nodup
    simpa using h2
  have hnodfull : ((as.map Prod.fst ++ idx :: bs.map Prod.fst) ++ ds).Nodup := by
    have h2 := M.nodup
    simpa using h2
  have hidxA : idx ∉ as.map Prod.fst := fun hmem =>
    (List.nodup_append.mp hnodAB).2.2 hmem (List.mem_cons_self _ _)
  have hidxB : idx ∉ bs.map Prod.fst :=
    (List.nodup_cons.mp (List.nodup_append.mp hnodAB).2.1).1
  have hdisj : ∀ a, a ∈ as.map Prod.fst → a ∈ bs.map Prod.fst → False :=
    fun a ha hb => (List.nodup_append.mp hnodAB).2.2 ha (List.mem_cons_of_mem _ hb)
  have hidxds : idx ∉ ds := fun hmem => M.disjoint (by simp) hmem
  have hAds : ∀ a, a ∈ as.map Prod.fst → a ∈ ds → False :=
    fun a ha hd => M.disjoint (by simp [ha]) hd
  have hBds : ∀ a, a ∈ bs.map Prod.fst → a ∈ ds → False :=
    fun a ha hd => M.disjoint (by simp [ha]) hd
  have hcov : ∀ i, i < s.list.length →
      (i ∈ as.map Prod.fst ++ idx :: bs.map Prod.fst ∨ i ∈ ds) := by
    intro i hi
    have h2 := M.cover i hi
    simpa using h2
  by_cases has : as = [] <;> by_cases hbs : bs = []
  · -- deleting the unique element
    subst has; subst hbs
    obtain ⟨hpm, hhd⟩ := hA.nil_inv
    obtain ⟨htl, hnx⟩ := hBrest.nil_inv
    subst hpm
    obtain rfl : nxt = none := hnx.symm
    have hres : s.deleteAux idx =
        (some v, ⟨s.list.set idx (.Deleted s.deleted_tail), none, none,
                  some idx, s.len - 1⟩) := by
      simp only [VecList.deleteAux, hslot, ← hhd, htl]
      simp
    rw [hres]
    refine ⟨rfl, ⟨.nil _ _, ?_, ?_, ?_, ?_⟩⟩
    · refine .cons (List.getElem?_set_eq_of_lt _ hidxlt) (M.free.congrFree fun j hj => ?_)
      exact List.getElem?_set_ne (fun hh => hidxds (by rw [hh]; exact hj))
    · simp [M.len_eq]
    · have h3 := nodup_shuffle hnodfull
      simpa using h3
    · intro i hi
      rw [List.length_set] at hi
      have h2 := cover_shuffle (hcov i hi)
      simpa using h2
  · -- deleting the head, non-trivial tail remains
    obtain ⟨⟨n, vn⟩, bs', rfl⟩ : ∃ hd rest, bs = hd :: rest := by
      cases bs with
      | nil => exact absurd rfl hbs
      | cons a l => exact ⟨a, l, rfl⟩
    subst has
    obtain ⟨hpm, hhd⟩ := hA.nil_inv
    subst hpm
    obtain ⟨hnxt, nn, hslotn, hbs'⟩ := hBrest.cons_inv
    subst hnxt
    have hnlt : n < s.list.length := (List.getElem?_eq_some.mp hslotn).1
    have hnB : n ∈ ((n, vn) :: bs').map Prod.fst := by simp
    have hnidx : n ≠ idx := fun hh => hidxB (by rw [← hh]; exact hnB)
    have hnbs' : n ∉ bs'.map Prod.fst := by
      have h2 := (List.nodup_cons.mp (List.nodup_append.mp hnodAB).2.1).2
      simp only [List.map_cons, List.nodup_cons] at h2
      exact h2.1
    have htailne : ¬s.tail = some idx := by
      rcases hBrest.last_pE hbs with ⟨iv, ys, hdec, hpe⟩
      intro hh
      rw [hh] at hpe
      obtain rfl : idx = iv.1 := Option.some.inj hpe
      exact hidxB (by rw [hdec]; simp)
    have h1 : VecList.getSlotL s.list n = Slot.Value vn nn (some idx) := by
      rw [VecList.getSlotL, hslotn, Option.getD_some]
    have hres : s.deleteAux idx =
        (some v, ⟨(s.list.set n (.Value vn nn none)).set idx (.Deleted s.deleted_tail),
                  some n, s.tail, some idx, s.len - 1⟩) := by
      simp only [VecList.deleteAux, hslot, ← hhd, if_neg htailne, h1, Slot.withPrev]
      simp
    rw [hres]
    refine ⟨rfl, ⟨?_, ?_, ?_, ?_, ?_⟩⟩
    · show IsChain _ none (some n) ([] ++ (n, vn) :: bs') s.tail none
      rw [List.nil_append]
      refine (IsChain.head_reprev none hslotn hbs' hnbs').congr fun i hi => ?_
      have hiidx : i ≠ idx := fun hh => hidxB (by rw [← hh]; exact hi)
      exact List.getElem?_set_ne (Ne.symm hiidx)
    · refine .cons ?_ (M.free.congrFree fun j hj => ?_)
      · refine List.getElem?_set_eq_of_lt _ ?_
        rw [List.length_set]
        exact hidxlt
      · have hjidx : j ≠ idx := fun hh => hidxds (by rw [← hh]; exact hj)
        have hjn : j ≠ n := fun hh => hBds n hnB (by rw [← hh]; exact hj)
        rw [List.getElem?_set_ne (Ne.symm hjidx), List.getElem?_set_ne (Ne.symm hjn)]
    · simp [M.len_eq]
    · have h3 := nodup_shuffle hnodfull
      simpa using h3
    · intro i hi
      rw [List.length_set, List.length_set] at hi
      have h2 := cover_shuffle (hcov i hi)
      simpa using h2
  · -- deleting the tail, non-trivial prefix remains
    subst hbs
    obtain ⟨htl, hnx⟩ := hBrest.nil_inv
    obtain rfl : nxt = none := hnx.symm
    rcases hA.last_pE has with ⟨iv, ys, hdecA, hpmeq⟩
    subst hpmeq
    have hpA : iv.1 ∈ as.map Prod.fst := by rw [hdecA]; simp
    have hpidx : iv.1 ≠ idx := fun hh => hidxA (by rw [← hh]; exact hpA)
    have hheadne : ¬s.head = some idx := by
      obtain ⟨⟨a0, w0⟩, as', rfl⟩ : ∃ hd rest, as = hd :: rest := by
        cases as with
        | nil => exact absurd rfl has
        | cons a l => exact ⟨a, l, rfl⟩
      obtain ⟨hhd, nx0, hslota0, hrestA⟩ := hA.cons_inv
      intro hh
      rw [hhd] at hh
      obtain rfl : a0 = idx := Option.some.inj hh
      exact hidxA (by simp)
    rcases hA.retarget (List.nodup_append.mp hnodAB).1 has none with ⟨vp, pp, hat, hchainA⟩
    have h1 : VecList.getSlotL s.list iv.1 = Slot.Value vp (some idx) pp := by
      rw [VecList.getSlotL, hat, Option.getD_some]
    have hres : s.deleteAux idx =
        (some v, ⟨(s.list.set iv.1 (.Value vp none pp)).set idx
                    (.Deleted s.deleted_tail),
                  s.head, some iv.1, some idx, s.len - 1⟩) := by
      simp only [VecList.deleteAux, hslot, if_neg hheadne, htl, h1, Slot.withNext]
      simp
    rw [hres]
    refine ⟨rfl, ⟨?_, ?_, ?_, ?_, ?_⟩⟩
    · show IsChain _ none s.head (as ++ []) (some iv.1) none
      rw [List.append_nil]
      refine hchainA.congr fun i hi => ?_
      have hiidx : i ≠ idx := fun hh => hidxA (by rw [← hh]; exact hi)
      exact List.getElem?_set_ne (Ne.symm hiidx)
    · refine .cons ?_ (M.free.congrFree fun j hj => ?_)
      · refine List.getElem?_set_eq_of_lt _ ?_
        rw [List.length_set]
        exact hidxlt
      · have hjidx : j ≠ idx := fun hh => hidxds (by rw [← hh]; exact hj)
        have hjp : j ≠ iv.1 := fun hh => hAds iv.1 hpA (by rw [← hh]; exact hj)
        rw [List.getElem?_set_ne (Ne.symm hjidx), List.getElem?_set_ne (Ne.symm hjp)]
    · rw [M.len_eq]; simp
    · have h3 := nodup_shuffle hnodfull
      simpa using h3
    · intro i hi
      rw [List.length_set, List.length_set] at hi
      have h2 := cover_shuffle (hcov i hi)
      simpa using h2
  · -- deleting an interior element
    obtain ⟨⟨n, vn⟩, bs', rfl⟩ : ∃ hd rest, bs = hd :: rest := by
      cases bs with
      | nil => exact absurd rfl hbs
      | cons a l => exact ⟨a, l, rfl⟩
    obtain ⟨hnxt, nn, hslotn, hbs'⟩ := hBrest.cons_inv
    subst hnxt
    rcases hA.last_pE has with ⟨iv, ys, hdecA, hpmeq⟩
    subst hpmeq
    have hpA : iv.1 ∈ as.map Prod.fst := by rw [hdecA]; simp
    have hpidx : iv.1 ≠ idx := fun hh => hidxA (by rw [← hh]; exact hpA)
    have hnB : n ∈ ((n, vn) :: bs').map Prod.fst := by simp
    have hnidx : n ≠ idx := fun hh => hidxB (by rw [← hh]; exact hnB)
    have hpn : iv.1 ≠ n := fun hh => hdisj iv.1 hpA (by rw [hh]; exact hnB)
    have hnbs' : n ∉ bs'.map Prod.fst := by
      have h2 := (List.nodup_cons.mp (List.nodup_append.mp hnodAB).2.1).2
      simp only [List.map_cons, List.nodup_cons] at h2
      exact h2.1
    have hheadne : ¬s.head = some idx := by
      obtain ⟨⟨a0, w0⟩, as', rfl⟩ : ∃ hd rest, as = hd :: rest := by
        cases as with
        | nil => exact absurd rfl has
        | cons a l => exact ⟨a, l, rfl⟩
      obtain ⟨hhd, nx0, hslota0, hrestA⟩ := hA.cons_inv
      intro hh
      rw [hhd] at hh
      obtain rfl : a0 = idx := Option.some.inj hh
      exact hidxA (by simp)
    have htailne : ¬s.tail = some idx := by
      rcases hBrest.last_pE hbs with ⟨jv, zs, hdec, hpe⟩
      intro hh
      rw [hh] at hpe
      obtain rfl : idx = jv.1 := Option.some.inj hpe
      exact hidxB (by rw [hdec]; simp)
    rcases hA.retarget (List.nodup_append.mp hnodAB).1 has (some n)
      with ⟨vp, pp, hat, hchainA⟩
    have h1 : VecList.getSlotL s.list iv.1 = Slot.Value vp (some idx) pp := by
      rw [VecList.getSlotL, hat, Option.getD_some]
    have h2 : VecList.getSlotL (s.list.set iv.1 (.Value vp (some n) pp)) n
        = Slot.Value vn nn (some idx) := by
      rw [VecList.getSlotL, List.getElem?_set_ne hpn, hslotn, Option.getD_some]
    have hres : s.deleteAux idx =
        (some v, ⟨((s.list.set iv.1 (.Value vp (some n) pp)).set n
                      (.Value vn nn (some iv.1))).set idx (.Deleted s.deleted_tail),
                  s.head, s.tail, some idx, s.len - 1⟩) := by
      simp only [VecList.deleteAux, hslot, if_neg hheadne, if_neg htailne, h1, h2,
        Slot.withNext, Slot.withPrev]
    rw [hres]
    have hslotn1 : (s.list.set iv.1 (.Value vp (some n) pp))[n]?
        = some (Slot.Value vn nn (some idx)) := by
      rw [List.getElem?_set_ne hpn]
      exact hslotn
    have hbs'1 : IsChain (s.list.set iv.1 (.Value vp (some n) pp)) (some n) nn bs'
        s.tail none := by
      refine hbs'.congr fun i hi => ?_
      have hip : iv.1 ≠ i :=
        fun hh => hdisj iv.1 hpA (by rw [hh]; exact List.mem_cons_of_mem _ hi)
      exact List.getElem?_set_ne hip
    refine ⟨rfl, ⟨?_, ?_, ?_, ?_, ?_⟩⟩
    · show IsChain _ none s.head (as ++ (n, vn) :: bs') s.tail none
      have hAst : IsChain (((s.list.set iv.1 (.Value vp (some n) pp)).set n
            (.Value vn nn (some iv.1))).set idx (.Deleted s.deleted_tail))
          none s.head as (some iv.1) (some n) := by
        refine hchainA.congr fun i hi => ?_
        have hiidx : i ≠ idx := fun hh => hidxA (by rw [← hh]; exact hi)
        have hin : n ≠ i := fun hh => hdisj i hi (by rw [← hh]; exact hnB)
        rw [List.getElem?_set_ne (Ne.symm hiidx), List.getElem?_set_ne hin]
      have hBst : IsChain (((s.list.set iv.1 (.Value vp (some n) pp)).set n
            (.Value vn nn (some iv.1))).set idx (.Deleted s.deleted_tail))
          (some iv.1) (some n) ((n, vn) :: bs') s.tail none := by
        refine (IsChain.head_reprev (some iv.1) hslotn1 hbs'1 hnbs').congr
          fun i hi => ?_
        have hiidx : i ≠ idx := fun hh => hidxB (by rw [← hh]; exact hi)
        exact List.getElem?_set_ne (Ne.symm hiidx)
      exact hAst.append hBst
    · refine .cons ?_ (M.free.congrFree fun j hj => ?_)
      · refine List.getElem?_set_eq_of_lt _ ?_
        rw [List.length_set, List.length_set]
        exact hidxlt
      · have hjidx : j ≠ idx := fun hh => hidxds (by rw [← hh]; exact hj)
        have hjn : j ≠ n := fun hh => hBds n hnB (by rw [← hh]; exact hj)
        have hjp : j ≠ iv.1 := fun hh => hAds iv.1 hpA (by rw [← hh]; exact hj)
        rw [List.getElem?_set_ne (Ne.symm hjidx), List.getElem?_set_ne (Ne.symm hjn),
          List.getElem?_set_ne (Ne.symm hjp)]
    · rw [M.len_eq]; simp
    · have h3 := nodup_shuffle hnodfull
      simpa using h3
    · intro i hi
      rw [List.length_set, List.length_set, List.length_set] at hi
      have h4 := cover_shuffle (hcov i hi)
      simpa using h4

/-- Deleting an already-deleted slot is a complete no-op. -/
lemma deleteAux_deleted {idx : Nat} {p : Option Nat}
    (h : s.list[idx]? = some (.Deleted p)) : s.deleteAux idx = (none, s) := by
  simp [VecList.deleteAux, h]

/-- Deleting past the end of the arena leaves the state alone (the source
panics before reaching this point). -/
lemma deleteAux_oob {idx : Nat} (h : s.list[idx]? = none) :
    s.deleteAux idx = (none, s) := by
  simp [VecList.deleteAux, h]

lemma pop_front_models_cons {i : Nat} {v : T} {rest : List (Nat × T)}
    (M : Models s ((i, v) :: rest) ds) :
    (s.pop_front).1 = some v ∧ Models (s.pop_front).2 rest (i :: ds) := by
  have hhead : s.head = some i := (M.chain.cons_inv).1
  have M' : Models s ([] ++ (i, v) :: rest) ds := M
  have h := deleteAux_models M'
  rw [List.nil_append] at h
  simpa [VecList.pop_front, hhead] using h

lemma pop_back_models_snoc {i : Nat} {v : T} {ys : List (Nat × T)}
    (M : Models s (ys ++ [(i, v)]) ds) :
    (s.pop_back).1 = some v ∧ Models (s.pop_back).2 ys (i :: ds) := by
  have htail : s.tail = some i := by
    rcases M.chain.last_pE (by simp) with ⟨jv, zs, hdec, hpe⟩
    have h2 : (ys ++ [(i, v)]).getLast? = some jv := by
      rw [hdec]; exact List.getLast?_concat _
    rw [List.getLast?_concat] at h2
    obtain rfl : (i, v) = jv := Option.some.inj h2
    exact hpe
  have h := deleteAux_models M
  rw [List.append_nil] at h
  simpa [VecList.pop_back, htail] using h

lemma models_new : Models (VecList.new : VecList T) [] [] :=
  ⟨.nil _ _, .nil, rfl, by simp, by simp [VecList.new]⟩

lemma models_clear (s : VecList T) : Models s.clear [] [] :=
  ⟨.nil _ _, .nil, rfl, by simp, by simp [VecList.clear]⟩

/-- Every state reachable through the public API satisfies the
representation invariant. -/
theorem reachable_models {s : VecList T} (h : Reachable s) :
    ∃ xs ds, Models s xs ds := by
  induction h with
  | new => exact ⟨[], [], models_new⟩
  | with_capacity c => exact ⟨[], [], models_new⟩
  | push_back v _ ih =>
    rcases ih with ⟨xs, ds, M⟩
    cases ds with
    | nil => exact ⟨_, _, (push_back_models_fresh M v).2⟩
    | cons d ds' => exact ⟨_, _, (push_back_models_reuse M v).2⟩
  | push_front v _ ih =>
    rcases ih with ⟨xs, ds, M⟩
    cases ds with
    | nil => exact ⟨_, _, (push_front_models_fresh M v).2⟩
    | cons d ds' => exact ⟨_, _, (push_front_models_reuse M v).2⟩
  | pop_front _ ih =>
    rename_i s' _
    rcases ih with ⟨xs, ds, M⟩
    cases xs with
    | nil =>
      have hhead : s'.head = none := (M.chain.nil_inv).2.symm
      have heq : s'.pop_front = (none, s') := by simp [VecList.pop_front, hhead]
      exact ⟨[], ds, by rw [heq]; exact M⟩
    | cons hd rest =>
      obtain ⟨i, v⟩ := hd
      exact ⟨_, _, (pop_front_models_cons M).2⟩
  | pop_back _ ih =>
    rename_i s' _
    rcases ih with ⟨xs, ds, M⟩
    rcases List.eq_nil_or_concat xs with rfl | ⟨ys, iv, rfl⟩
    · have htail : s'.tail = none := (M.chain.nil_inv).1
      have heq : s'.pop_back = (none, s') := by simp [VecList.pop_back, htail]
      exact ⟨[], ds, by rw [heq]; exact M⟩
    · obtain ⟨i, v⟩ := iv
      rw [List.concat_eq_append] at M
      exact ⟨_, _, (pop_back_models_snoc M).2⟩
  | delete idx hr hlt ih =>
    rename_i s'
    rcases ih with ⟨xs, ds, M⟩
    cases hslot : s'.list[idx]? with
    | none => exact ⟨xs, ds, by rw [deleteAux_oob hslot]; exact M⟩
    | some slot =>
      cases slot with
      | Value v nxt prv =>
        rcases M.mem_chain_of_value hslot with ⟨as, bs, rfl⟩
        exact ⟨_, _, (deleteAux_models M).2⟩
      | Deleted p => exact ⟨xs, ds, by rw [deleteAux_deleted hslot]; exact M⟩
  | clear _ ih => exact ⟨[], [], models_clear _⟩

end Delete

section Iteration

variable {T : Type} {s : VecList T}

/-- Starting the forward cursor at the head of a terminated chain yields
exactly the chain, in order, whatever the backward cursor holds. -/
lemma collectF_chain {p c pE : Option Nat} {xs : List (Nat × T)}
    (h : IsChain s.list p c xs pE none) :
    ∀ fuel, xs.length ≤ fuel → ∀ pr,
      collectF s fuel ⟨c, pr⟩ = xs.map (fun q => (q.2, q.1)) := by
  induction xs generalizing p c with
  | nil =>
    obtain ⟨-, hc⟩ := h.nil_inv
    intro fuel _ pr
    cases fuel with
    | zero => rfl
    | succ k => simp [collectF, iterNext, ← hc]
  | cons hd tl ih =>
    obtain ⟨i, v⟩ := hd
    obtain ⟨rfl, nx, hslot, htail⟩ := h.cons_inv
    intro fuel hfuel pr
    cases fuel with
    | zero => simp at hfuel
    | succ k =>
      have hk : tl.length ≤ k := by
        simp only [List.length_cons] at hfuel
        omega
      simp only [collectF, iterNext, VecList.getSlot, hslot, Option.getD_some,
        List.map_cons]
      rw [ih htail k hk pr]

/-- Starting the backward cursor at the end of a chain whose expected
starting `prev` is `none` yields exactly the reversed chain. -/
lemma collectB_chain {c pE cE : Option Nat} {xs : List (Nat × T)}
    (h : IsChain s.list none c xs pE cE) :
    ∀ fuel, xs.length ≤ fuel → ∀ nx0,
      collectB s fuel ⟨nx0, pE⟩ = (xs.map (fun q => (q.2, q.1))).reverse := by
  induction xs using List.reverseRecOn generalizing c cE pE with
  | nil =>
    obtain ⟨hp, -⟩ := h.nil_inv
    intro fuel _ nx0
    cases fuel with
    | zero => rfl
    | succ k => simp [collectB, iterNextBack, hp]
  | append_singleton ys jw ih =>
    obtain ⟨j, w⟩ := jw
    rcases h.append_inv with ⟨pm, cm, hys, hlast⟩
    obtain ⟨rfl, nx, hslot, hnil⟩ := hlast.cons_inv
    obtain ⟨hpE, hcE⟩ := hnil.nil_inv
    subst hpE
    intro fuel hfuel nx0
    cases fuel with
    | zero => simp at hfuel
    | succ k =>
      have hk : ys.length ≤ k := by
        simp only [List.length_append, List.length_cons, List.length_nil] at hfuel
        omega
      simp only [collectB, iterNextBack, VecList.getSlot, hslot, Option.getD_some]
      rw [ih hys k hk nx0]
      simp

/-- On any well-formed state the forward traversal of `iter()` is the live
chain (as value-handle pairs). -/
lemma forwardSeq_models {xs : List (Nat × T)} {ds : List Nat} (M : Models s xs ds) :
    forwardSeq s = xs.map (fun q => (q.2, q.1)) := by
  rw [forwardSeq, VecList.iter]
  exact collectF_chain M.chain s.len (le_of_eq M.len_eq.symm) s.tail

/-- On any well-formed state the backward traversal of `iter()` is the
reversed live chain. -/
lemma backwardSeq_models {xs : List (Nat × T)} {ds : List Nat} (M : Models s xs ds) :
    backwardSeq s = (xs.map (fun q => (q.2, q.1))).reverse := by
  rw [backwardSeq, VecList.iter]
  exact collectB_chain M.chain s.len (le_of_eq M.len_eq.symm) s.head

/-- Extra fuel changes nothing: the traversals are exhausted after `len`
steps. -/
lemma collect_exhausted {xs : List (Nat × T)} {ds : List Nat} (M : Models s xs ds)
    {fuel : Nat} (hf : s.len ≤ fuel) :
    collectF s fuel s.iter = forwardSeq s ∧ collectB s fuel s.iter = backwardSeq s := by
  have hlen : xs.length ≤ fuel := M.len_eq ▸ hf
  constructor
  · rw [forwardSeq_models M, VecList.iter]
    exact collectF_chain M.chain fuel hlen s.tail
  · rw [backwardSeq_models M, VecList.iter]
    exact collectB_chain M.chain fuel hlen s.head

end Iteration

section RoundTrip

variable {T : Type}

/-- Pushing values onto a state with no free slots appends them to the
live chain in order. -/
lemma pushBackAll_models {s : VecList T} {xs : List (Nat × T)} (vs : List T)
    (M : Models s xs []) :
    ∃ ys, Models (pushBackAll s vs) (xs ++ ys) [] ∧ ys.map Prod.snd = vs := by
  induction vs generalizing s xs with
  | nil => exact ⟨[], by simpa using M, rfl⟩
  | cons v vs' ih =>
    have hstep := (push_back_models_fresh M v).2
    rcases ih hstep with ⟨ys', M2, hmap⟩
    refine ⟨(s.len, v) :: ys', ?_, by simpa using hmap⟩
    have : (xs ++ [(s.len, v)]) ++ ys' = xs ++ ((s.len, v) :: ys') := by
      rw [List.append_assoc]; rfl
    rw [← this]
    exact M2

/-- Popping from the front `len` times returns the chain values in order. -/
lemma popFrontN_models {s : VecList T} {xs : List (Nat × T)} {ds : List Nat}
    (M : Models s xs ds) :
    popFrontN s xs.length = xs.map (fun q => some q.2) := by
  induction xs generalizing s ds with
  | nil => rfl
  | cons hd tl ih =>
    obtain ⟨i, v⟩ := hd
    obtain ⟨h1, M2⟩ := pop_front_models_cons M
    simp only [List.length_cons, popFrontN, h1, List.map_cons]
    rw [ih M2]

/-- Popping from the back `len` times returns the chain values in reverse
order. -/
lemma popBackN_models {s : VecList T} {xs : List (Nat × T)} {ds : List Nat}
    (M : Models s xs ds) :
    popBackN s xs.length = (xs.map (fun q => some q.2)).reverse := by
  induction xs using List.reverseRecOn generalizing s ds with
  | nil => rfl
  | append_singleton ys jw ih =>
    obtain ⟨i, v⟩ := jw
    obtain ⟨h1, M2⟩ := pop_back_models_snoc M
    have hlen : (ys ++ [(i, v)]).length = ys.length + 1 := by simp
    rw [hlen]
    simp only [popBackN, h1]
    rw [ih M2]
    simp

end RoundTrip

section StateFacts

variable {T : Type} {s : VecList T} {l : List (Slot T)}

lemma get_eq_valueAtL (s : VecList T) (idx : Nat) :
    s.get idx = VecList.valueAtL s.list idx := rfl

lemma get_eq_some_iff {h : Nat} {v : T} :
    s.get h = some v ↔ ∃ nx pv, s.list[h]? = some (.Value v nx pv) := by
  constructor
  · intro hg
    cases hl : s.list[h]? with
    | none => simp [VecList.get, hl] at hg
    | some sl =>
      cases sl with
      | Value v' a b =>
        have hvv : v' = v := by simpa [VecList.get, hl] using hg
        exact ⟨a, b, by rw [← hvv]⟩
      | Deleted p => simp [VecList.get, hl] at hg
  · rintro ⟨nx, pv, hslot⟩
    simp [VecList.get, hslot]

lemma valueAtL_set_ne {j h : Nat} (hne : j ≠ h) (x : Slot T) :
    VecList.valueAtL (l.set j x) h = VecList.valueAtL l h := by
  rw [VecList.valueAtL, VecList.valueAtL, List.getElem?_set_ne hne]

lemma valueAtL_set_withNext (j : Nat) (n : Option Nat) {h : Nat} :
    VecList.valueAtL (l.set j ((VecList.getSlotL l j).withNext n)) h
      = VecList.valueAtL l h := by
  by_cases hjh : j = h
  · subst hjh
    cases hl : l[j]? with
    | none =>
      have hlen : l.length ≤ j := by
        by_contra hlt
        rw [List.getElem?_eq_getElem (Nat.lt_of_not_le hlt)] at hl
        cases hl
      rw [List.set_eq_of_length_le hlen]
    | some sl =>
      have hlt : j < l.length := (List.getElem?_eq_some.mp hl).1
      cases sl with
      | Value v a b =>
        rw [VecList.valueAtL, VecList.valueAtL, hl,
          List.getElem?_set_eq_of_lt _ hlt, VecList.getSlotL, hl]
        rfl
      | Deleted p =>
        rw [VecList.valueAtL, VecList.valueAtL, hl,
          List.getElem?_set_eq_of_lt _ hlt, VecList.getSlotL, hl]
        rfl
  · exact valueAtL_set_ne hjh _

lemma valueAtL_set_withPrev (j : Nat) (n : Option Nat) {h : Nat} :
    VecList.valueAtL (l.set j ((VecList.getSlotL l j).withPrev n)) h
      = VecList.valueAtL l h := by
  by_cases hjh : j = h
  · subst hjh
    cases hl : l[j]? with
    | none =>
      have hlen : l.length ≤ j := by
        by_contra hlt
        rw [List.getElem?_eq_getElem (Nat.lt_of_not_le hlt)] at hl
        cases hl
      rw [List.set_eq_of_length_le hlen]
    | some sl =>
      have hlt : j < l.length := (List.getElem?_eq_some.mp hl).1
      cases sl with
      | Value v a b =>
        rw [VecList.valueAtL, VecList.valueAtL, hl,
          List.getElem?_set_eq_of_lt _ hlt, VecList.getSlotL, hl]
        rfl
      | Deleted p =>
        rw [VecList.valueAtL, VecList.valueAtL, hl,
          List.getElem?_set_eq_of_lt _ hlt, VecList.getSlotL, hl]
        rfl
  · exact valueAtL_set_ne hjh _

lemma valueAtL_append {h : Nat} (hlt : h < l.length) (l2 : List (Slot T)) :
    VecList.valueAtL (l ++ l2) h = VecList.valueAtL l h := by
  rw [VecList.valueAtL, VecList.valueAtL, List.getElem?_append_left hlt]

/-- Deleting an occupied slot: returned value, new free top, capacity, new
length, and the tombstone left behind. -/
lemma deleteAux_value_state {idx : Nat} {v : T} {nxt prv : Option Nat}
    (hslot : s.list[idx]? = some (.Value v nxt prv)) :
    (s.deleteAux idx).1 = some v ∧
    (s.deleteAux idx).2.deleted_tail = some idx ∧
    (s.deleteAux idx).2.cap = s.cap ∧
    (s.deleteAux idx).2.len = s.len - 1 ∧
    (s.deleteAux idx).2.list[idx]? = some (.Deleted s.deleted_tail) := by
  have hlt : idx < s.list.length := (List.getElem?_eq_some.mp hslot).1
  refine ⟨?_, ?_, ?_, ?_, ?_⟩
  · simp [VecList.deleteAux, hslot]
  · simp [VecList.deleteAux, hslot]
  · simp only [VecList.deleteAux, hslot]
    cases prv <;> cases nxt <;> simp [VecList.cap]
  · simp [VecList.deleteAux, hslot]
  · simp only [VecList.deleteAux, hslot]
    cases prv <;> cases nxt <;>
      exact List.getElem?_set_eq_of_lt _ (by simp [hlt])

/-- Operation `push_back` into a state with free-stack top `d` returns `d` and keeps
the capacity; the length always grows by one. -/
lemma push_back_reuse_facts {d : Nat} (hdt : s.deleted_tail = some d) (v : T) :
    (s.push_back v).1 = d ∧ (s.push_back v).2.cap = s.cap ∧
    (s.push_back v).2.len = s.len + 1 := by
  refine ⟨?_, ?_, ?_⟩
  · simp [VecList.push_back, hdt]
  · simp only [VecList.push_back, hdt]
    cases s.tail <;> split <;> simp [VecList.cap]
  · simp only [VecList.push_back, hdt]
    cases s.tail <;> split <;> rfl

lemma push_front_reuse_facts {d : Nat} (hdt : s.deleted_tail = some d) (v : T) :
    (s.push_front v).1 = d ∧ (s.push_front v).2.cap = s.cap ∧
    (s.push_front v).2.len = s.len + 1 := by
  refine ⟨?_, ?_, ?_⟩
  · simp [VecList.push_front, hdt]
  · simp only [VecList.push_front, hdt]
    cases s.head <;> split <;> simp [VecList.cap]
  · simp only [VecList.push_front, hdt]
    cases s.head <;> split <;> rfl

lemma push_back_len (v : T) : (s.push_back v).2.len = s.len + 1 := by
  cases hdt : s.deleted_tail with
  | some d => exact (push_back_reuse_facts hdt v).2.2
  | none =>
    simp only [VecList.push_back, hdt]
    split
    · rfl
    · cases s.tail <;> rfl

lemma push_front_len (v : T) : (s.push_front v).2.len = s.len + 1 := by
  cases hdt : s.deleted_tail with
  | some d => exact (push_front_reuse_facts hdt v).2.2
  | none =>
    simp only [VecList.push_front, hdt]
    split
    · rfl
    · cases s.head <;> rfl

end StateFacts

section Stability

variable {T : Type} {s : VecList T}

/-- Deleting any other handle never changes `get h`. -/
lemma get_deleteAux_ne {idx h : Nat} (hne : idx ≠ h) :
    ((s.deleteAux idx).2).get h = s.get h := by
  cases hl : s.list[idx]? with
  | none => rw [deleteAux_oob hl]
  | some sl =>
    cases sl with
    | Deleted p => rw [deleteAux_deleted hl]
    | Value v nxt prv =>
      simp only [VecList.deleteAux, hl]
      cases prv <;> cases nxt <;>
        simp [get_eq_valueAtL, valueAtL_set_ne hne, valueAtL_set_withNext,
          valueAtL_set_withPrev]

/-- Operation `pop_front` of anything other than `h` never changes `get h`. -/
lemma get_pop_front_ne {h : Nat} (hne : s.head ≠ some h) :
    ((s.pop_front).2).get h = s.get h := by
  cases hhd : s.head with
  | none => simp [VecList.pop_front, hhd]
  | some i =>
    have hih : i ≠ h := fun hh => hne (by rw [hhd, hh])
    simp only [VecList.pop_front, hhd]
    exact get_deleteAux_ne hih

lemma get_pop_back_ne {h : Nat} (hne : s.tail ≠ some h) :
    ((s.pop_back).2).get h = s.get h := by
  cases htl : s.tail with
  | none => simp [VecList.pop_back, htl]
  | some i =>
    have hih : i ≠ h := fun hh => hne (by rw [htl, hh])
    simp only [VecList.pop_back, htl]
    exact get_deleteAux_ne hih

/-- On a well-formed state, `push_back` never changes `get h` for an
occupied handle `h`. -/
lemma get_push_back_pres {xs : List (Nat × T)} {ds : List Nat} {h : Nat} {v : T}
    (M : Models s xs ds) (hget : s.get h = some v) (w : T) :
    ((s.push_back w).2).get h = some v := by
  obtain ⟨nx, pv, hslot⟩ := get_eq_some_iff.mp hget
  have hlt : h < s.list.length := (List.getElem?_eq_some.mp hslot).1
  cases hdt : s.deleted_tail with
  | some d =>
    obtain ⟨p, ds', rfl, hdslot, -⟩ := by
      have hfree := M.free
      rw [hdt] at hfree
      exact hfree.some_inv
    have hdh : d ≠ h := by
      intro hh
      rw [hh, hslot] at hdslot
      cases hdslot
    rw [← hget]
    simp only [VecList.push_back, hdt]
    cases s.tail <;> split <;>
      simp [get_eq_valueAtL, valueAtL_set_withNext, valueAtL_set_ne hdh]
  | none =>
    rw [← hget]
    simp only [VecList.push_back, hdt]
    split
    · simp [get_eq_valueAtL, valueAtL_append hlt]
    · cases s.tail with
      | none => simp [get_eq_valueAtL, valueAtL_append hlt]
      | some t =>
        simp only [get_eq_valueAtL]
        rw [valueAtL_set_withNext, valueAtL_append hlt]

lemma get_push_front_pres {xs : List (Nat × T)} {ds : List Nat} {h : Nat} {v : T}
    (M : Models s xs ds) (hget : s.get h = some v) (w : T) :
    ((s.push_front w).2).get h = some v := by
  obtain ⟨nx, pv, hslot⟩ := get_eq_some_iff.mp hget
  have hlt : h < s.list.length := (List.getElem?_eq_some.mp hslot).1
  cases hdt : s.deleted_tail with
  | some d =>
    obtain ⟨p, ds', rfl, hdslot, -⟩ := by
      have hfree := M.free
      rw [hdt] at hfree
      exact hfree.some_inv
    have hdh : d ≠ h := by
      intro hh
      rw [hh, hslot] at hdslot
      cases hdslot
    rw [← hget]
    simp only [VecList.push_front, hdt]
    cases s.head <;> split <;>
      simp [get_eq_valueAtL, valueAtL_set_withPrev, valueAtL_set_ne hdh]
  | none =>
    rw [← hget]
    simp only [VecList.push_front, hdt]
    split
    · simp [get_eq_valueAtL, valueAtL_append hlt]
    · cases s.head with
      | none => simp [get_eq_valueAtL, valueAtL_append hlt]
      | some h0 =>
        simp only [get_eq_valueAtL]
        rw [valueAtL_set_withPrev, valueAtL_append hlt]

/-- Applying a public operation preserves reachability. -/
lemma applyOp_reachable {op : Op T} {s2 : VecList T}
    (hr : Reachable s) (happ : applyOp s op = some s2) : Reachable s2 := by
  cases op with
  | pushBack v => cases happ; exact .push_back v hr
  | pushFront v => cases happ; exact .push_front v hr
  | deleteOp idx =>
    rw [applyOp] at happ
    split at happ
    · cases happ
      exact .delete idx hr (by assumption)
    · cases happ
  | popFront => cases happ; exact .pop_front hr
  | popBack => cases happ; exact .pop_back hr

end Stability

section Growth

variable {T : Type}

/-- With `cap = 0` the wrapper's length grows by one on every `add`:
the first `add` takes the eviction branch (whose `pop_back` is a no-op on
the empty inner list), every later one the `push_back` branch. -/
lemma bounded_zero_growth (vs : List T) :
    ∀ bl : BoundedList T, bl.cap = 0 → Reachable bl.list →
      (List.foldl BoundedList.add bl vs).len = bl.len + vs.length := by
  induction vs with
  | nil => intro bl _ _; simp
  | cons x vs' ih =>
    intro bl h0 hr
    rw [List.foldl_cons]
    by_cases hlen : bl.list.len = 0
    · have hcond : bl.list.len = bl.cap := by rw [hlen, h0]
      obtain ⟨xs, ds, M⟩ := reachable_models hr
      have hxs : xs = [] := by
        have h2 := M.len_eq
        rw [hlen] at h2
        exact List.length_eq_zero.mp h2.symm
      subst hxs
      have htl : bl.list.tail = none := (M.chain.nil_inv).1
      have hpop : bl.list.pop_back = (none, bl.list) := by
        simp [VecList.pop_back, htl]
      have hadd : bl.add x = ⟨((bl.list.pop_back).2.push_front x).2, bl.cap⟩ := by
        rw [BoundedList.add, if_pos hcond]
      have hrach2 : Reachable ((bl.list.pop_back).2.push_front x).2 :=
        .push_front x (.pop_back hr)
      have h2 := ih ⟨((bl.list.pop_back).2.push_front x).2, bl.cap⟩ h0 hrach2
      rw [hadd, h2]
      have h4 : (⟨((bl.list.pop_back).2.push_front x).2, bl.cap⟩ : BoundedList T).len
          = (bl.list.pop_back).2.len + 1 := push_front_len x
      rw [h4, hpop]
      simp only [BoundedList.len, List.length_cons, hlen]
      omega
    · have hcond : ¬bl.list.len = bl.cap := by
        rw [h0]; exact fun hh => hlen hh
      have hadd : bl.add x = ⟨(bl.list.push_back x).2, bl.cap⟩ := by
        rw [BoundedList.add, if_neg hcond]
      have h2 := ih ⟨(bl.list.push_back x).2, bl.cap⟩ h0 (.push_back x hr)
      rw [hadd, h2]
      have h4 : (⟨(bl.list.push_back x).2, bl.cap⟩ : BoundedList T).len
          = bl.list.len + 1 := push_back_len x
      rw [h4]
      simp only [BoundedList.len, List.length_cons]
      omega

end Growth

/-! ## The claims -/

section Claims

/-- C1: the spec says `next(handle)`/`previous(handle)` are neighbour
lookups returning the chain links of an occupied slot (`None` only for a
deleted or out-of-range handle).  The code's guard is inverted
(`if idx < self.cap() { return None; }`), so every in-range handle gets
`None`: on the two-element list `[10, 20]`, slot 0 is occupied with chain
successor 1 and slot 1 is occupied with chain predecessor 0, yet `next 0`,
`next 1`, `previous 0` and `previous 1` all return `none`.  (For
`idx ≥ cap` the source performs an out-of-bounds unchecked read, in
contradiction with `get_slot`'s own `debug_assert!(idx < self.cap())`.) -/
theorem C1_next_previous_inverted_guard :
    exList2.cap = 2 ∧
    exList2.list[0]? = some (.Value 10 (some 1) none) ∧
    exList2.list[1]? = some (.Value 20 none (some 0)) ∧
    exList2.get 0 = some 10 ∧ exList2.get 1 = some 20 ∧
    exList2.next 0 = none ∧ exList2.next 1 = none ∧
    exList2.previous 0 = none ∧ exList2.previous 1 = none := by
  decide

/-- C2 (counterexample): the claim that, under any interleaving of `next`
and `next_back`, an `iter()` yields exactly `len` elements in total (the
cursors stopping when they meet) is false: on the two-element list
`[10, 20]` the interleaving forward, backward, forward, backward yields
four elements, because neither cursor checks for the other. -/
theorem C2_interleaving_counterexample :
    exList2.len = 2 ∧
    (runIter exList2 [Dir.F, Dir.B, Dir.F, Dir.B] exList2.iter).length = 4 := by
  decide

/-- C2 (amended): on every reachable list, pure forward iteration yields
exactly `len` elements — the live chain from `head` in chain order — and
pure backward iteration yields exactly the same elements in reverse order;
each direction is exhausted after `len` steps (extra fuel yields nothing
more).  The original claim's guarantee for interleaved stepping does not
hold (see the counterexample): the cursors do not stop on meeting. -/
theorem C2_pure_direction_iteration {T : Type} (s : VecList T)
    (hr : Reachable s) :
    (forwardSeq s).length = s.len ∧
    backwardSeq s = (forwardSeq s).reverse ∧
    collectF s (s.len + 1) s.iter = forwardSeq s ∧
    collectB s (s.len + 1) s.iter = backwardSeq s ∧
    ∃ xs ds, Models s xs ds ∧ forwardSeq s = xs.map (fun q => (q.2, q.1)) := by
  obtain ⟨xs, ds, M⟩ := reachable_models hr
  have hf := forwardSeq_models M
  have hb := backwardSeq_models M
  obtain ⟨he1, he2⟩ := collect_exhausted M (Nat.le_succ _)
  refine ⟨?_, ?_, he1, he2, xs, ds, M, hf⟩
  · rw [hf, List.length_map, M.len_eq]
  · rw [hf, hb]

/-- C2 witness: the amended theorem applied to the concrete two-element
list `[10, 20]`. -/
theorem C2_pure_direction_iteration_witness :
    Reachable exList2 ∧
    ((forwardSeq exList2).length = exList2.len ∧
     backwardSeq exList2 = (forwardSeq exList2).reverse ∧
     collectF exList2 (exList2.len + 1) exList2.iter = forwardSeq exList2 ∧
     collectB exList2 (exList2.len + 1) exList2.iter = backwardSeq exList2 ∧
     ∃ xs ds, Models exList2 xs ds ∧
       forwardSeq exList2 = xs.map (fun q => (q.2, q.1))) :=
  ⟨.push_back 20 (.push_back 10 .new),
   C2_pure_direction_iteration exList2 (.push_back 20 (.push_back 10 .new))⟩

/-- C3: on every reachable list, deleting an occupied handle `h` returns
the stored value and decrements `len` by exactly one, and an immediately
repeated `delete h` returns `none` leaving the entire state (arena, head,
tail, free top, len) unchanged. -/
theorem C3_delete_idempotent {T : Type} (s : VecList T) (h : Nat) (v : T)
    (nxt prv : Option Nat) (hr : Reachable s)
    (hslot : s.list[h]? = some (.Value v nxt prv)) :
    s.delete h = some (some v, (s.deleteAux h).2) ∧
    (s.deleteAux h).2.len + 1 = s.len ∧
    (s.deleteAux h).2.delete h = some (none, (s.deleteAux h).2) := by
  obtain ⟨xs, ds, M⟩ := reachable_models hr
  obtain ⟨as, bs, rfl⟩ := M.mem_chain_of_value hslot
  obtain ⟨h1, M2⟩ := deleteAux_models M
  obtain ⟨-, -, hcap2, -, hslot2⟩ := deleteAux_value_state hslot
  have hlt : h < s.cap := (List.getElem?_eq_some.mp hslot).1
  refine ⟨?_, ?_, ?_⟩
  · rw [VecList.delete, if_pos hlt, ← h1]
  · rw [M2.len_eq, M.len_eq]
    simp only [List.length_append, List.length_cons]
    omega
  · rw [VecList.delete, if_pos (by rw [hcap2]; exact hlt),
      deleteAux_deleted hslot2]

/-- C3 witness: deleting handle 0 of the list `[10, 20]`. -/
theorem C3_delete_idempotent_witness :
    Reachable exList2 ∧
    exList2.list[0]? = some (.Value 10 (some 1) none) ∧
    (exList2.delete 0 = some (some 10, (exList2.deleteAux 0).2) ∧
     (exList2.deleteAux 0).2.len + 1 = exList2.len ∧
     (exList2.deleteAux 0).2.delete 0 = some (none, (exList2.deleteAux 0).2)) :=
  ⟨.push_back 20 (.push_back 10 .new), by decide,
   C3_delete_idempotent exList2 0 10 (some 1) none
     (.push_back 20 (.push_back 10 .new)) (by decide)⟩

/-- C4: after deleting an occupied handle `h`, the very next insertion
(`push_back` or `push_front`) reuses slot `h` — the returned handle is `h`
(LIFO reuse) — and the capacity after the insertion equals the capacity
before the delete (no new slot is allocated). -/
theorem C4_lifo_slot_reuse {T : Type} (s : VecList T) (h : Nat) (v w : T)
    (nxt prv : Option Nat)
    (hslot : s.list[h]? = some (.Value v nxt prv)) :
    (((s.deleteAux h).2).push_back w).1 = h ∧
    (((s.deleteAux h).2).push_back w).2.cap = s.cap ∧
    (((s.deleteAux h).2).push_front w).1 = h ∧
    (((s.deleteAux h).2).push_front w).2.cap = s.cap := by
  obtain ⟨-, hdt2, hcap2, -, -⟩ := deleteAux_value_state hslot
  obtain ⟨hb1, hb2, -⟩ := push_back_reuse_facts hdt2 w
  obtain ⟨hf1, hf2, -⟩ := push_front_reuse_facts hdt2 w
  exact ⟨hb1, by rw [hb2, hcap2], hf1, by rw [hf2, hcap2]⟩

/-- C4 witness: delete handle 0 of `[10, 20]` and reinsert. -/
theorem C4_lifo_slot_reuse_witness :
    exList2.list[0]? = some (.Value 10 (some 1) none) ∧
    ((((exList2.deleteAux 0).2).push_back 99).1 = 0 ∧
     (((exList2.deleteAux 0).2).push_back 99).2.cap = exList2.cap ∧
     (((exList2.deleteAux 0).2).push_front 99).1 = 0 ∧
     (((exList2.deleteAux 0).2).push_front 99).2.cap = exList2.cap) :=
  ⟨by decide, C4_lifo_slot_reuse exList2 0 10 99 (some 1) none (by decide)⟩

/-- C5: pushing `v1..vn` with `push_back` into a fresh list and popping
`n` times with `pop_front` returns `v1..vn` in order; popping `n` times
with `pop_back` instead returns them in reverse order. -/
theorem C5_fifo_lifo_roundtrip (T : Type) (vs : List T) :
    popFrontN (pushBackAll VecList.new vs) vs.length = vs.map some ∧
    popBackN (pushBackAll VecList.new vs) vs.length = vs.reverse.map some := by
  obtain ⟨ys, M, hmap⟩ := pushBackAll_models vs models_new
  rw [List.nil_append] at M
  have hlen : ys.length = vs.length := by rw [← hmap, List.length_map]
  constructor
  · rw [← hlen, popFrontN_models M, ← hmap]
    simp
  · rw [← hlen, popBackN_models M, ← hmap]
    simp

/-- C6: the canonical eviction scenario — `cap = 2`, `add 1`, `add 2`,
`add 3` — leaves the wrapper with front-to-back contents `[3, 1]`:
the front is value 3 (in slot 1), the back value 1 (in slot 0), the
forward traversal is exactly those two, and the length is 2. -/
theorem C6_bounded_eviction_scenario :
    ((((BoundedList.new 2 : BoundedList Nat).add 1).add 2).add 3).list.front
      = some (3, 1) ∧
    ((((BoundedList.new 2 : BoundedList Nat).add 1).add 2).add 3).list.back
      = some (1, 0) ∧
    forwardSeq ((((BoundedList.new 2 : BoundedList Nat).add 1).add 2).add 3).list
      = [(3, 1), (1, 0)] ∧
    ((((BoundedList.new 2 : BoundedList Nat).add 1).add 2).add 3).len = 2 := by
  decide

/-- C7: on every reachable list state these are equivalent: `len = 0`,
`is_empty`, `front = none`, `back = none`, and internally `head = none`
and `tail = none`. -/
theorem C7_emptiness_equivalences {T : Type} (s : VecList T)
    (hr : Reachable s) :
    (s.len = 0 ↔ s.is_empty = true) ∧ (s.len = 0 ↔ s.front = none) ∧
    (s.len = 0 ↔ s.back = none) ∧ (s.len = 0 ↔ s.head = none) ∧
    (s.len = 0 ↔ s.tail = none) := by
  obtain ⟨xs, ds, M⟩ := reachable_models hr
  by_cases hxe : xs = []
  · subst hxe
    obtain ⟨htl, hhd⟩ := M.chain.nil_inv
    have hlen : s.len = 0 := M.len_eq
    refine ⟨?_, ?_, ?_, ?_, ?_⟩ <;>
      simp [hlen, VecList.is_empty, VecList.front, VecList.back, ← hhd, htl]
  · have hlen : s.len ≠ 0 := by
      rw [M.len_eq]
      exact fun h0 => hxe (List.length_eq_zero.mp h0)
    obtain ⟨⟨i, v⟩, rest, rfl⟩ : ∃ hd rest, xs = hd :: rest := by
      cases xs with
      | nil => exact absurd rfl hxe
      | cons a l => exact ⟨a, l, rfl⟩
    obtain ⟨hhd, nx0, hslot0, -⟩ := M.chain.cons_inv
    rcases M.chain.last_pE (by simp) with ⟨iv, ys, hdec, hpe⟩
    obtain ⟨t, w⟩ := iv
    obtain ⟨nxl, pvl, hslotl⟩ := M.chain.mem_value
      (show (t, w) ∈ (i, v) :: rest by rw [hdec]; simp)
    have hfront : s.front = some (v, i) := by
      simp [VecList.front, hhd, VecList.getSlot, hslot0]
    have hback : s.back = some (w, t) := by
      simp [VecList.back, hpe, VecList.getSlot, hslotl]
    refine ⟨?_, ?_, ?_, ?_, ?_⟩ <;>
      simp [VecList.is_empty, hlen, hfront, hback, hhd, hpe]

/-- C7 witness: the equivalences on the concrete list `[10, 20]`. -/
theorem C7_emptiness_equivalences_witness :
    Reachable exList2 ∧
    ((exList2.len = 0 ↔ exList2.is_empty = true) ∧
     (exList2.len = 0 ↔ exList2.front = none) ∧
     (exList2.len = 0 ↔ exList2.back = none) ∧
     (exList2.len = 0 ↔ exList2.head = none) ∧
     (exList2.len = 0 ↔ exList2.tail = none)) :=
  ⟨.push_back 20 (.push_back 10 .new),
   C7_emptiness_equivalences exList2 (.push_back 20 (.push_back 10 .new))⟩

/-- C8: handle stability — if `get h = some v` on a reachable list, then
after any sequence of public mutating operations none of which removes
`h` (no `delete h`, no pop while `h` is the front/back, no panicking
call), `get h` still returns `v`. -/
theorem C8_handle_stability {T : Type} (s s2 : VecList T) (h : Nat) (v : T)
    (ops : List (Op T)) (hr : Reachable s) (hget : s.get h = some v)
    (hrun : safeRun s h ops = some s2) :
    s2.get h = some v := by
  induction ops generalizing s with
  | nil =>
    rw [safeRun] at hrun
    cases hrun
    exact hget
  | cons op rest ih =>
    rw [safeRun] at hrun
    split at hrun
    · cases hrun
    · rename_i hrm
      cases happ : applyOp s op with
      | none => rw [happ] at hrun; cases hrun
      | some s3 =>
        rw [happ] at hrun
        have hr3 : Reachable s3 := applyOp_reachable hr happ
        have hget3 : s3.get h = some v := by
          obtain ⟨xs, ds, M⟩ := reachable_models hr
          cases op with
          | pushBack w => cases happ; exact get_push_back_pres M hget w
          | pushFront w => cases happ; exact get_push_front_pres M hget w
          | deleteOp idx =>
            have hne : idx ≠ h := by
              simp only [removesH] at hrm
              exact fun hh => hrm (by rw [hh]; simp)
            rw [applyOp] at happ
            split at happ
            · cases happ
              rw [get_deleteAux_ne hne]
              exact hget
            · cases happ
          | popFront =>
            have hne : s.head ≠ some h := by
              simp only [removesH] at hrm
              exact fun hh => hrm (by rw [hh]; simp)
            cases happ
            rw [get_pop_front_ne hne]
            exact hget
          | popBack =>
            have hne : s.tail ≠ some h := by
              simp only [removesH] at hrm
              exact fun hh => hrm (by rw [hh]; simp)
            cases happ
            rw [get_pop_back_ne hne]
            exact hget
        exact ih s3 hr3 hget3 hrun

/-- C8 witness: handle 0 of `[10, 20]` still yields 10 after pushing 30
and deleting handle 1. -/
theorem C8_handle_stability_witness :
    Reachable exList2 ∧ exList2.get 0 = some 10 ∧
    safeRun exList2 0 [Op.pushBack 30, Op.deleteOp 1]
      = some (((exList2.push_back 30).2.deleteAux 1).2) ∧
    (((exList2.push_back 30).2.deleteAux 1).2).get 0 = some 10 :=
  ⟨.push_back 20 (.push_back 10 .new), by decide, by decide,
   C8_handle_stability exList2 (((exList2.push_back 30).2.deleteAux 1).2) 0 10
     [Op.pushBack 30, Op.deleteOp 1]
     (.push_back 20 (.push_back 10 .new)) (by decide) (by decide)⟩

/-- C9: on every reachable state whose free stack is empty
(`deleted_tail = none`), `len` equals the capacity and no slot is
Deleted; an insertion in such a state returns the pre-insertion length as
its handle, grows the capacity by exactly one, and the new handle holds
the inserted value. -/
theorem C9_fresh_append {T : Type} (s : VecList T) (v : T)
    (hr : Reachable s) (hdt : s.deleted_tail = none) :
    s.len = s.cap ∧
    (∀ i, i < s.cap → (s.getSlot i).has_value = true) ∧
    (s.push_back v).1 = s.len ∧ (s.push_back v).2.cap = s.cap + 1 ∧
    (s.push_back v).2.get s.len = some v ∧
    (s.push_front v).1 = s.len ∧ (s.push_front v).2.cap = s.cap + 1 ∧
    (s.push_front v).2.get s.len = some v := by
  obtain ⟨xs, ds, M⟩ := reachable_models hr
  have hds : ds = [] := by
    have hf := M.free
    rw [hdt] at hf
    exact hf.none_inv
  subst hds
  have hcap := M.len_eq_cap_of_free_nil
  have hxsl : xs.length = s.cap := by rw [← M.len_eq]; exact hcap
  obtain ⟨hb1, Mb⟩ := push_back_models_fresh M v
  obtain ⟨hf1, Mf⟩ := push_front_models_fresh M v
  refine ⟨hcap, ?_, hb1, ?_, ?_, hf1, ?_, ?_⟩
  · intro i hi
    rcases M.cover i hi with hc | hc
    · rcases List.mem_map.mp hc with ⟨⟨i', w⟩, hmem, rfl⟩
      obtain ⟨nx, pv, hslot⟩ := M.chain.mem_value hmem
      simp [VecList.getSlot, hslot, Slot.has_value]
    · cases hc
  · have h2 := Mb.len_eq_cap_of_free_nil
    rw [← h2, Mb.len_eq]
    simp [hxsl]
  · obtain ⟨nx, pv, hslot⟩ := Mb.chain.mem_value
      (show (s.len, v) ∈ xs ++ [(s.len, v)] by simp)
    exact get_eq_some_iff.mpr ⟨nx, pv, hslot⟩
  · have h2 := Mf.len_eq_cap_of_free_nil
    rw [← h2, Mf.len_eq]
    simp [hxsl]
  · obtain ⟨nx, pv, hslot⟩ := Mf.chain.mem_value
      (show (s.len, v) ∈ (s.len, v) :: xs by simp)
    exact get_eq_some_iff.mpr ⟨nx, pv, hslot⟩

/-- C9 witness: the list `[10, 20]` has an empty free stack; pushing 99
appends slot 2. -/
theorem C9_fresh_append_witness :
    Reachable exList2 ∧ exList2.deleted_tail = none ∧
    (exList2.len = exList2.cap ∧
     (∀ i, i < exList2.cap → (exList2.getSlot i).has_value = true) ∧
     (exList2.push_back 99).1 = exList2.len ∧
     (exList2.push_back 99).2.cap = exList2.cap + 1 ∧
     (exList2.push_back 99).2.get exList2.len = some 99 ∧
     (exList2.push_front 99).1 = exList2.len ∧
     (exList2.push_front 99).2.cap = exList2.cap + 1 ∧
     (exList2.push_front 99).2.get exList2.len = some 99) :=
  ⟨.push_back 20 (.push_back 10 .new), by decide,
   C9_fresh_append exList2 99 (.push_back 20 (.push_back 10 .new)) (by decide)⟩

/-- C10: with `cap = 0` the bound is never enforced.  The first `add`
takes the eviction branch — its `pop_back` on the empty inner list is a
no-op and `push_front` then inserts — leaving `len = 1 > cap`; every
subsequent `add` takes the plain `push_back` branch and increments `len`;
hence `n` adds always leave `len = n`, growing without bound. -/
theorem C10_bounded_zero_cap_unbounded (v w : Nat) (vs : List Nat) :
    ((BoundedList.new 0 : BoundedList Nat).add v).len = 1 ∧
    ((BoundedList.new 0 : BoundedList Nat).add v)
      = ⟨(((BoundedList.new 0 : BoundedList Nat).list.pop_back).2.push_front v).2, 0⟩ ∧
    (∀ bl : BoundedList Nat, bl.cap = 0 → 0 < bl.len →
        bl.add w = ⟨(bl.list.push_back w).2, bl.cap⟩ ∧
        (bl.add w).len = bl.len + 1) ∧
    (List.foldl BoundedList.add (BoundedList.new 0 : BoundedList Nat) vs).len
      = vs.length := by
  refine ⟨rfl, rfl, ?_, ?_⟩
  · intro bl h0 hpos
    have hne : ¬bl.list.len = bl.cap := by
      rw [h0]
      have : bl.list.len = bl.len := rfl
      omega
    have hadd : bl.add w = ⟨(bl.list.push_back w).2, bl.cap⟩ := by
      rw [BoundedList.add, if_neg hne]
    refine ⟨hadd, ?_⟩
    rw [hadd]
    have h4 : (⟨(bl.list.push_back w).2, bl.cap⟩ : BoundedList Nat).len
        = bl.list.len + 1 := push_back_len w
    rw [h4]
    rfl
  · have h2 := bounded_zero_growth vs (BoundedList.new 0 : BoundedList Nat) rfl
      (Reachable.with_capacity 0)
    rw [h2]
    exact Nat.zero_add _

/-- C10 witness: two further adds after `add 5` on a zero-capacity wrapper
give length 3. -/
theorem C10_bounded_zero_cap_unbounded_witness :
    (((BoundedList.new 0 : BoundedList Nat).add 5).len = 1 ∧
     ((BoundedList.new 0 : BoundedList Nat).add 5)
       = ⟨(((BoundedList.new 0 : BoundedList Nat).list.pop_back).2.push_front 5).2, 0⟩ ∧
     (∀ bl : BoundedList Nat, bl.cap = 0 → 0 < bl.len →
         bl.add 6 = ⟨(bl.list.push_back 6).2, bl.cap⟩ ∧
         (bl.add 6).len = bl.len + 1) ∧
     (List.foldl BoundedList.add (BoundedList.new 0 : BoundedList Nat) [5, 6, 7]).len
       = [5, 6, 7].length) :=
  C10_bounded_zero_cap_unbounded 5 6 [5, 6, 7]

end Claims

end VecListModel
